import Mathlib

/-!
# Verification of the mini-kv append-only key-value engine

A shallow embedding of `src/record.rs` and `src/engine.rs`.
Bytes are modelled as `Nat` (values `< 256` on-disk), machine integers as
`Nat` with explicit `% 2^32` where the Rust code casts to `u32`.
-/

set_option maxRecDepth 10000

deriving instance DecidableEq for Except

namespace MiniKv

/-- Models `u32::to_le_bytes` on a value already reduced mod `2^32`. -/
def toLE4 (n : Nat) : List Nat :=
  [n % 256, n / 256 % 256, n / 65536 % 256, n / 16777216 % 256]

/-- Models `u32::from_le_bytes` of (the first 4 bytes of) a byte list. -/
def fromLE4 (l : List Nat) : Nat :=
  l.getD 0 0 + 256 * l.getD 1 0 + 65536 * l.getD 2 0 + 16777216 * l.getD 3 0

/-- The reflected CRC-32 (IEEE) generator polynomial, as in `crc32fast`. -/
def crcPoly : Nat := 0xEDB88320

/-- One bit step of the reflected CRC-32: shift right, conditionally xor. -/
def crc32Round (c : Nat) : Nat :=
  if c % 2 = 1 then (c / 2) ^^^ crcPoly else c / 2

/-- Absorb one byte into the CRC state. -/
def crc32Byte (c b : Nat) : Nat := crc32Round^[8] (c ^^^ b)

/-- Absorb a byte list into the CRC state. -/
def crc32Aux (c : Nat) : List Nat → Nat
  | [] => c
  | b :: bs => crc32Aux (crc32Byte c b) bs

/-- Models `crc32fast::hash`: CRC-32 (IEEE polynomial, reflected) of a byte list. -/
def crc32 (data : List Nat) : Nat := crc32Aux 0xFFFFFFFF data ^^^ 0xFFFFFFFF

/-- The constant `MAX_KEY_LEN` from `record.rs` (1 MiB). -/
def MAX_KEY_LEN : Nat := 1024 * 1024

/-- The constant `MAX_VAL_LEN` from `record.rs` (10 MiB). -/
def MAX_VAL_LEN : Nat := 1024 * 1024 * 10

/-- The constant `CRC_SIZE` from `record.rs`. -/
def CRC_SIZE : Nat := 4

/-- The `Record` struct of `record.rs`. -/
structure Record where
  key : List Nat
  value : List Nat
deriving Repr, DecidableEq

/-- Models `Record::encode`: `key_len ‖ val_len ‖ key ‖ value ‖ crc`,
lengths little-endian after the `as u32` cast. -/
def Record.encode (r : Record) : List Nat :=
  let body := toLE4 (r.key.length % 2 ^ 32) ++ toLE4 (r.value.length % 2 ^ 32)
    ++ r.key ++ r.value
  body ++ toLE4 (crc32 body)

/-- The three decode failures of `record.rs` (`anyhow` messages
"Buffer too short", "Incomplete buffer", "CRC mismatch"). -/
inductive DecodeErr where
  | shortBuffer
  | incomplete
  | crcMismatch
deriving Repr, DecidableEq

/-- Models `Record::decode`: parse one frame from the front of `buf`,
returning the record and the number of bytes consumed. -/
def Record.decode (buf : List Nat) : Except DecodeErr (Record × Nat) :=
  if buf.length < 12 then .error .shortBuffer
  else
    let key_len := fromLE4 ((buf.drop 0).take 4)
    let val_len := fromLE4 ((buf.drop 4).take 4)
    let total_len := 8 + key_len + val_len + CRC_SIZE
    if buf.length < total_len then .error .incomplete
    else
      let data_end := total_len - CRC_SIZE
      let expected_crc := fromLE4 ((buf.drop data_end).take 4)
      let actual_crc := crc32 (buf.take data_end)
      if expected_crc ≠ actual_crc then .error .crcMismatch
      else .ok (⟨(buf.drop 8).take key_len, (buf.drop (8 + key_len)).take val_len⟩,
        total_len)

/-- Rust slice `&buf[a..b]`: `none` models the out-of-bounds panic. -/
def checkedSlice (buf : List Nat) (a b : Nat) : Option (List Nat) :=
  if a ≤ b ∧ b ≤ buf.length then some ((buf.take b).drop a) else none

/-- Version of `Record::decode` with every slice access modelled as fallible:
an out-of-bounds access yields `none` (a panic) instead of a value. -/
def Record.decodeChecked (buf : List Nat) :
    Option (Except DecodeErr (Record × Nat)) :=
  if buf.length < 12 then some (.error .shortBuffer)
  else do
    let b0 ← checkedSlice buf 0 4
    let b1 ← checkedSlice buf 4 8
    let key_len := fromLE4 b0
    let val_len := fromLE4 b1
    let total_len := 8 + key_len + val_len + CRC_SIZE
    if buf.length < total_len then pure (.error .incomplete)
    else do
      let data_end := total_len - CRC_SIZE
      let crcBytes ← checkedSlice buf data_end total_len
      let dataBytes ← checkedSlice buf 0 data_end
      let expected_crc := fromLE4 crcBytes
      let actual_crc := crc32 dataBytes
      if expected_crc ≠ actual_crc then pure (.error .crcMismatch)
      else do
        let keyBytes ← checkedSlice buf 8 (8 + key_len)
        let valBytes ← checkedSlice buf (8 + key_len) (8 + key_len + val_len)
        pure (.ok (⟨keyBytes, valBytes⟩, total_len))

/-- Flip bit `i` (bit `i % 8` of byte `i / 8`) of a byte list. -/
def flipBit (l : List Nat) (i : Nat) : List Nat :=
  l.set (i / 8) (l.getD (i / 8) 0 ^^^ 2 ^ (i % 8))

/-! ## The engine (`engine.rs`) -/

/-- The `SyncMode` enum; `Periodic` durations are modelled in abstract
time units (`Nat`). -/
inductive SyncMode where
  | always
  | batch (n : Nat)
  | periodic (d : Nat)
deriving Repr, DecidableEq

/-- The `IoMode` enum (stored by the engine, never branched on). -/
inductive IoMode where
  | buffered
  | direct
deriving Repr, DecidableEq

/-- The in-memory index `HashMap<Vec<u8>, u64>`, modelled extensionally. -/
def Index := List Nat → Option Nat

/-- Models `HashMap::new`. -/
def Index.empty : Index := fun _ => none

/-- Models `HashMap::insert` (later insertions win). -/
def Index.insert (m : Index) (k : List Nat) (v : Nat) : Index :=
  fun k' => if k' = k then some v else m k'

/-- Writing `d` at byte offset `c` of a file holding `f`: bytes before
`c` are kept, a gap beyond the current end of file is zero-filled (as
the kernel does for a write past EOF), and any old bytes after the
written range survive. -/
def writeAt (f : List Nat) (c : Nat) (d : List Nat) : List Nat :=
  f.take c ++ List.replicate (c - f.length) 0 ++ (d ++ f.drop (c + d.length))

/-- The `Engine` struct.  The log file's bytes stand in for the `File`
handle together with its read/write offset `fileCursor` (the kernel
file position, which `set_len` does not move), wall-clock instants are
abstract `Nat`s, and the progress sink is its enabledness plus the
published number. -/
structure Engine where
  file : List Nat
  index : Index
  pos : Nat
  sync_mode : SyncMode
  io_mode : IoMode
  write_count : Nat
  last_sync : Nat
  logical_index : Nat
  durable_index : Nat
  progressEnabled : Bool
  progress : Option Nat
  fileCursor : Nat

/-- The scan loop of `Engine::recover`: starting at `pos`, repeatedly
decode a frame, collecting `(record, offset)` pairs in scan order and
returning them with the final cursor.  `fuel` bounds the iteration count
(any `fuel ≥ buf.length - pos` gives the loop's exact behaviour, since
every decoded frame consumes at least 12 bytes). -/
def scanFrom : Nat → List Nat → Nat → List (Record × Nat) × Nat
  | 0, _, pos => ([], pos)
  | fuel + 1, buf, pos =>
    if pos < buf.length then
      match Record.decode (buf.drop pos) with
      | .ok (r, size) =>
        let rest := scanFrom fuel buf (pos + size)
        ((r, pos) :: rest.1, rest.2)
      | .error _ => ([], pos)
    else ([], pos)

/-- The records of the valid frame scan of a file, with their offsets. -/
def recoverScan (buf : List Nat) : List (Record × Nat) × Nat :=
  scanFrom (buf.length + 1) buf 0

/-- Models `Engine::recover`: scan all records, rebuild the index, set the
counters, truncate the torn tail.  (`List.take pos` is the identity when
nothing needs truncating, matching the guarded `set_len`.)  The
`seek(0)` / `read_to_end` pair leaves the kernel file offset at the end
of the content that was read; the guarded `set_len` shrinks the file
without moving that offset, so after a truncating recovery the cursor
sits beyond the new end of file. -/
def Engine.recover (e : Engine) : Engine :=
  let s := recoverScan e.file
  { e with
    index := s.1.foldl (fun m rp => m.insert rp.1.key rp.2) Index.empty
    pos := s.2
    logical_index := s.1.length
    durable_index := s.1.length
    file := e.file.take s.2
    fileCursor := e.file.length }

/-- Whether `Engine::recover` executes its `set_len` truncation call. -/
def recoverTruncates (buf : List Nat) : Prop :=
  (recoverScan buf).2 < buf.length

/-- Models `Engine::with_config`: the engine as opened on a file currently
holding `initialFile`, before/after recovery, with the `CRASH_TEST`
progress sink optionally enabled. -/
def Engine.withConfig (initialFile : List Nat) (sync_mode : SyncMode)
    (io_mode : IoMode) (crashTest : Bool) (now : Nat) : Engine :=
  let e : Engine :=
    { file := initialFile, index := Index.empty, pos := 0, sync_mode, io_mode,
      write_count := 0, last_sync := now, logical_index := 0,
      durable_index := 0, progressEnabled := false, progress := none,
      fileCursor := 0 }
  let e := e.recover
  if crashTest then
    { e with progressEnabled := true, progress := some e.durable_index }
  else e

/-- Models `Engine::sync` with the outcomes of its two fallible syscalls made
explicit: `dataSyncOk` for `file.sync_data()`, `publishOk` for the
progress-file I/O inside `update_progress_file` (which always succeeds
when the sink is disabled).  Returns the new state and whether `sync`
returned `Ok`.  Note the counters are updated before the publish. -/
def Engine.syncWith (e : Engine) (now : Nat) (dataSyncOk publishOk : Bool) :
    Engine × Bool :=
  if dataSyncOk then
    let e' := { e with durable_index := e.logical_index, write_count := 0,
                       last_sync := now }
    if e'.progressEnabled then
      if publishOk then ({ e' with progress := some e'.durable_index }, true)
      else (e', false)
    else (e', true)
  else (e, false)

/-- Models `Engine::put` with its fallible syscalls made explicit.
`write_all` writes at the kernel file offset `fileCursor` (zero-filling
any gap past EOF) and advances it; on a failed `write_all`, `torn` is
whatever byte tail the failed call managed to write.  The index binding
and the `pos` advance happen only after the sync decision, exactly as
in the source. -/
def Engine.putWith (e : Engine) (key value : List Nat) (torn : List Nat)
    (now : Nat) (writeOk dataSyncOk publishOk : Bool) : Engine × Bool :=
  let encoded := Record.encode ⟨key, value⟩
  let current_record_pos := e.pos
  if writeOk then
    let e1 := { e with file := writeAt e.file e.fileCursor encoded,
                       fileCursor := e.fileCursor + encoded.length,
                       logical_index := e.logical_index + 1 }
    let step2 : Engine × Bool :=
      match e1.sync_mode with
      | .always => (e1, true)
      | .batch n =>
        let e2 := { e1 with write_count := e1.write_count + 1 }
        (e2, decide (e2.write_count ≥ n))
      | .periodic d => (e1, decide (now - e1.last_sync ≥ d))
    let e2 := step2.1
    if step2.2 then
      let s := e2.syncWith now dataSyncOk publishOk
      if s.2 then
        ({ s.1 with index := s.1.index.insert key current_record_pos,
                    pos := s.1.pos + encoded.length }, true)
      else (s.1, false)
    else
      ({ e2 with index := e2.index.insert key current_record_pos,
                 pos := e2.pos + encoded.length }, true)
  else ({ e with file := writeAt e.file e.fileCursor torn,
                 fileCursor := e.fileCursor + torn.length }, false)

/-- Models `Engine::contains_key`. -/
def Engine.contains_key (e : Engine) (key : List Nat) : Bool :=
  (e.index key).isSome

/-- Run a sequence of puts, all of whose syscalls succeed. -/
def Engine.putSeq (e : Engine) (kvs : List (List Nat × List Nat))
    (now : Nat) : Engine :=
  kvs.foldl (fun a kv => (a.putWith kv.1 kv.2 [] now true true true).1) e

/-- One observable engine operation (a `put` or a `sync` call), each
fallible syscall resolved arbitrarily. -/
inductive Step : Engine → Engine → Prop where
  | put (e : Engine) (key value torn : List Nat) (now : Nat)
      (writeOk dataSyncOk publishOk : Bool) :
      Step e (e.putWith key value torn now writeOk dataSyncOk publishOk).1
  | sync (e : Engine) (now : Nat) (dataSyncOk publishOk : Bool) :
      Step e (e.syncWith now dataSyncOk publishOk).1

/-- Engine states reachable in one process lifetime: an `open` on
arbitrary initial file content followed by any puts and syncs, each of
which may succeed or fail. -/
inductive Reach : Engine → Prop where
  | open_ (initialFile : List Nat) (sync_mode : SyncMode) (io_mode : IoMode)
      (crashTest : Bool) (now : Nat) :
      Reach (Engine.withConfig initialFile sync_mode io_mode crashTest now)
  | step {e e' : Engine} : Reach e → Step e e' → Reach e'

/-- One observable operation all of whose puts succeed (`sync` calls may
still fail): the success-only step relation. -/
inductive StepPutOk : Engine → Engine → Prop where
  | put (e : Engine) (key value : List Nat) (now : Nat)
      (hk : ∀ b ∈ key, b < 256) (hv : ∀ b ∈ value, b < 256)
      (hkl : key.length < 2 ^ 32) (hvl : value.length < 2 ^ 32) :
      StepPutOk e (e.putWith key value [] now true true true).1
  | sync (e : Engine) (now : Nat) (dataSyncOk publishOk : Bool) :
      StepPutOk e (e.syncWith now dataSyncOk publishOk).1

/-- Engine states reachable when the open performed no truncation (the
initial file is entirely a valid record sequence, so the kernel file
offset left by `read_to_end` coincides with the end of file) and every
put succeeded. -/
inductive ReachPutOk : Engine → Prop where
  | open_ (initialFile : List Nat) (sync_mode : SyncMode) (io_mode : IoMode)
      (crashTest : Bool) (now : Nat)
      (hclean : (recoverScan initialFile).2 = initialFile.length) :
      ReachPutOk (Engine.withConfig initialFile sync_mode io_mode crashTest now)
  | step {e e' : Engine} : ReachPutOk e → StepPutOk e e' → ReachPutOk e'

/-! ## Little-endian and CRC-32 lemmas -/

theorem toLE4_length (n : Nat) : (toLE4 n).length = 4 := rfl

theorem toLE4_lt (n : Nat) : ∀ b ∈ toLE4 n, b < 256 := by
  intro b hb
  simp only [toLE4, List.mem_cons, List.not_mem_nil, or_false] at hb
  rcases hb with h | h | h | h <;> subst h <;> omega

theorem fromLE4_toLE4 {n : Nat} (h : n < 2 ^ 32) : fromLE4 (toLE4 n) = n := by
  simp only [toLE4, fromLE4, List.getD_cons_zero, List.getD_cons_succ]
  omega

theorem getD_lt_256 {l : List Nat} (h : ∀ b ∈ l, b < 256) (i : Nat) :
    l.getD i 0 < 256 := by
  rcases Nat.lt_or_ge i l.length with hi | hi
  · rw [List.getD_eq_getElem l 0 hi]
    exact h _ (List.getElem_mem hi)
  · rw [List.getD_eq_default l 0 hi]
    omega

theorem fromLE4_lt {l : List Nat} (h : ∀ b ∈ l, b < 256) :
    fromLE4 l < 2 ^ 32 := by
  have h0 := getD_lt_256 h 0
  have h1 := getD_lt_256 h 1
  have h2 := getD_lt_256 h 2
  have h3 := getD_lt_256 h 3
  simp only [fromLE4]
  omega

theorem crcPoly_lt : crcPoly < 2 ^ 32 := by norm_num [crcPoly]

theorem crc32Round_lt {c : Nat} (h : c < 2 ^ 32) : crc32Round c < 2 ^ 32 := by
  have hd : c / 2 < 2 ^ 32 := Nat.lt_of_le_of_lt (Nat.div_le_self c 2) h
  unfold crc32Round
  split
  · exact Nat.xor_lt_two_pow hd crcPoly_lt
  · exact hd

theorem crc32Round_iterate_lt {c : Nat} (k : Nat) (h : c < 2 ^ 32) :
    crc32Round^[k] c < 2 ^ 32 := by
  induction k generalizing c with
  | zero => exact h
  | succ k ih =>
    rw [Function.iterate_succ_apply]
    exact ih (crc32Round_lt h)

theorem crc32Byte_lt {c b : Nat} (hc : c < 2 ^ 32) (hb : b < 256) :
    crc32Byte c b < 2 ^ 32 := by
  have : b < 2 ^ 32 := by omega
  exact crc32Round_iterate_lt 8 (Nat.xor_lt_two_pow hc this)

theorem crc32Aux_lt {c : Nat} {l : List Nat} (hc : c < 2 ^ 32)
    (hl : ∀ b ∈ l, b < 256) : crc32Aux c l < 2 ^ 32 := by
  induction l generalizing c with
  | nil => exact hc
  | cons b bs ih =>
    have hb : b < 256 := hl b (List.mem_cons_self b bs)
    exact ih (crc32Byte_lt hc hb) fun x hx => hl x (List.mem_cons_of_mem _ hx)

theorem crc32_lt {l : List Nat} (hl : ∀ b ∈ l, b < 256) : crc32 l < 2 ^ 32 := by
  unfold crc32
  exact Nat.xor_lt_two_pow (crc32Aux_lt (by norm_num) hl) (by norm_num)

theorem crc32Round_inj {a b : Nat} (ha : a < 2 ^ 32) (hb : b < 2 ^ 32)
    (h : crc32Round a = crc32Round b) : a = b := by
  have hbit : Nat.testBit crcPoly 31 = true := by decide
  unfold crc32Round at h
  by_cases hpa : a % 2 = 1 <;> by_cases hpb : b % 2 = 1 <;>
    simp only [hpa, hpb, if_true, if_false, reduceIte] at h
  · have := Nat.xor_left_inj.mp h
    omega
  · exfalso
    have h31 : Nat.testBit (a / 2 ^^^ crcPoly) 31 = Nat.testBit (b / 2) 31 := by
      rw [h]
    have ha2 : a / 2 < 2 ^ 31 := by omega
    have hb2 : b / 2 < 2 ^ 31 := by omega
    rw [Nat.testBit_xor, Nat.testBit_lt_two_pow ha2, Nat.testBit_lt_two_pow hb2,
      hbit] at h31
    simp at h31
  · exfalso
    have h31 : Nat.testBit (a / 2) 31 = Nat.testBit (b / 2 ^^^ crcPoly) 31 := by
      rw [h]
    have ha2 : a / 2 < 2 ^ 31 := by omega
    have hb2 : b / 2 < 2 ^ 31 := by omega
    rw [Nat.testBit_xor, Nat.testBit_lt_two_pow ha2, Nat.testBit_lt_two_pow hb2,
      hbit] at h31
    simp at h31
  · omega

theorem crc32Round_iterate_inj {a b : Nat} (k : Nat) (ha : a < 2 ^ 32)
    (hb : b < 2 ^ 32) (h : crc32Round^[k] a = crc32Round^[k] b) : a = b := by
  induction k generalizing a b with
  | zero => exact h
  | succ k ih =>
    rw [Function.iterate_succ_apply, Function.iterate_succ_apply] at h
    exact crc32Round_inj ha hb (ih (crc32Round_lt ha) (crc32Round_lt hb) h)

theorem crc32Byte_inj {a b x : Nat} (ha : a < 2 ^ 32) (hb : b < 2 ^ 32)
    (hx : x < 256) (h : crc32Byte a x = crc32Byte b x) : a = b := by
  have hx32 : x < 2 ^ 32 := by omega
  have := crc32Round_iterate_inj 8 (Nat.xor_lt_two_pow ha hx32)
    (Nat.xor_lt_two_pow hb hx32) h
  exact Nat.xor_left_inj.mp this

theorem crc32Aux_inj {a b : Nat} {l : List Nat} (ha : a < 2 ^ 32)
    (hb : b < 2 ^ 32) (hl : ∀ x ∈ l, x < 256)
    (h : crc32Aux a l = crc32Aux b l) : a = b := by
  induction l generalizing a b with
  | nil => exact h
  | cons x xs ih =>
    have hx : x < 256 := hl x (List.mem_cons_self x xs)
    have hx' : ∀ y ∈ xs, y < 256 := fun y hy => hl y (List.mem_cons_of_mem _ hy)
    exact crc32Byte_inj ha hb hx
      (ih (crc32Byte_lt ha hx) (crc32Byte_lt hb hx) hx' h)

theorem crc32Aux_cons (c x : Nat) (xs : List Nat) :
    crc32Aux c (x :: xs) = crc32Aux (crc32Byte c x) xs := rfl

theorem crc32Aux_append (c : Nat) (xs ys : List Nat) :
    crc32Aux c (xs ++ ys) = crc32Aux (crc32Aux c xs) ys := by
  induction xs generalizing c with
  | nil => rfl
  | cons x xs ih =>
    rw [List.cons_append]
    show crc32Aux (crc32Byte c x) (xs ++ ys) = crc32Aux (crc32Aux c (x :: xs)) ys
    rw [ih]
    rfl

/-- CRC-32 detects every single-bit error. -/
theorem crc32_flipBit_ne {l : List Nat} {j t : Nat}
    (hl : ∀ b ∈ l, b < 256) (hj : j < l.length) (ht : t < 8) :
    crc32 (l.set j (l.getD j 0 ^^^ 2 ^ t)) ≠ crc32 l := by
  have hget : l.getD j 0 = l[j] := List.getD_eq_getElem l 0 hj
  have hdecomp : l = l.take j ++ l[j] :: l.drop (j + 1) := by
    conv_lhs => rw [← List.take_append_drop j l]
    rw [List.drop_eq_getElem_cons hj]
  have hset : l.set j (l.getD j 0 ^^^ 2 ^ t)
      = l.take j ++ (l[j] ^^^ 2 ^ t) :: l.drop (j + 1) := by
    rw [hget, List.set_eq_take_append_cons_drop]
    simp [hj]
  rw [hset]
  conv_rhs => rw [hdecomp]
  unfold crc32
  intro hcon
  have hcon' := Nat.xor_left_inj.mp hcon
  rw [crc32Aux_append, crc32Aux_append] at hcon'
  set c := crc32Aux 0xFFFFFFFF (l.take j) with hc
  have hcl : c < 2 ^ 32 := by
    apply crc32Aux_lt (by norm_num)
    intro b hb
    exact hl b (List.mem_of_mem_take hb)
  have hjl : l[j] < 256 := hl _ (List.getElem_mem hj)
  have hjt : l[j] ^^^ 2 ^ t < 256 := by
    have h1 : l[j] < 2 ^ 8 := by omega
    have h2 : 2 ^ t < 2 ^ 8 := Nat.pow_lt_pow_right (by omega) ht
    have := Nat.xor_lt_two_pow h1 h2
    omega
  have hdrop : ∀ b ∈ l.drop (j + 1), b < 256 :=
    fun b hb => hl b (List.mem_of_mem_drop hb)
  rw [crc32Aux_cons, crc32Aux_cons] at hcon'
  have hstate : crc32Byte c (l[j] ^^^ 2 ^ t) = crc32Byte c l[j] :=
    crc32Aux_inj (crc32Byte_lt hcl hjt) (crc32Byte_lt hcl hjl) hdrop hcon'
  unfold crc32Byte at hstate
  have hxeq := crc32Round_iterate_inj 8
    (Nat.xor_lt_two_pow hcl (by omega)) (Nat.xor_lt_two_pow hcl (by omega))
    hstate
  have hflip : l[j] ^^^ 2 ^ t = l[j] := Nat.xor_right_injective hxeq
  have h0 : l[j] ^^^ (l[j] ^^^ 2 ^ t) = l[j] ^^^ l[j] := by rw [hflip]
  rw [Nat.xor_cancel_left, Nat.xor_self] at h0
  have := Nat.two_pow_pos t
  omega

/-! ## Codec lemmas -/

theorem Record.encode_length (r : Record) :
    (Record.encode r).length = 12 + r.key.length + r.value.length := by
  simp only [Record.encode, List.length_append, toLE4, List.length_cons,
    List.length_nil]
  omega

theorem Record.encode_bytes_lt {r : Record} (hk : ∀ b ∈ r.key, b < 256)
    (hv : ∀ b ∈ r.value, b < 256) : ∀ b ∈ Record.encode r, b < 256 := by
  intro b hb
  simp only [Record.encode, List.mem_append] at hb
  rcases hb with (((h | h) | h) | h) | h
  · exact toLE4_lt _ b h
  · exact toLE4_lt _ b h
  · exact hk b h
  · exact hv b h
  · exact toLE4_lt _ b h

/-- Inversion for a successful decode: the consumed size is at least 12,
fits in the buffer, and equals the decoded record's frame size. -/
theorem Record.decode_ok_size {buf : List Nat} {r : Record} {s : Nat}
    (h : Record.decode buf = .ok (r, s)) :
    12 ≤ s ∧ s ≤ buf.length ∧ s = 12 + r.key.length + r.value.length := by
  unfold Record.decode at h
  dsimp only [] at h
  split at h
  · exact absurd h (by simp)
  · split at h
    · exact absurd h (by simp)
    · split at h
      · exact absurd h (by simp)
      · rename_i hshort hlong hcrc
        injection h with h
        injection h with hr hs
        subst hr
        subst hs
        refine ⟨by simp [CRC_SIZE]; omega, by simp [CRC_SIZE] at hlong ⊢; omega, ?_⟩
        simp only [CRC_SIZE] at hlong ⊢
        have h1 : ((buf.drop 8).take (fromLE4 ((buf.drop 0).take 4))).length
            = fromLE4 ((buf.drop 0).take 4) := by
          simp only [List.length_take, List.length_drop]
          omega
        have h2 : ((buf.drop (8 + fromLE4 ((buf.drop 0).take 4))).take
            (fromLE4 ((buf.drop 4).take 4))).length
            = fromLE4 ((buf.drop 4).take 4) := by
          simp only [List.length_take, List.length_drop]
          omega
        simp only [h1, h2]
        omega

theorem slice_congr {xs ys : List Nat} {s a b : Nat}
    (h : xs.take s = ys.take s) (hab : a + b ≤ s) :
    (xs.drop a).take b = (ys.drop a).take b := by
  rw [List.take_drop, List.take_drop]
  have hx : xs.take (a + b) = ys.take (a + b) := by
    have hmin : min (a + b) s = a + b := by omega
    rw [← hmin, ← List.take_take, ← List.take_take (n := a + b) (m := s), h]
  rw [hx]

/-- A successful decode depends only on the consumed bytes: any buffer
agreeing on them (and long enough) decodes identically. -/
theorem Record.decode_ok_mono {xs ys : List Nat} {r : Record} {s : Nat}
    (h : Record.decode xs = .ok (r, s)) (hagree : xs.take s = ys.take s)
    (hlen : s ≤ ys.length) : Record.decode ys = .ok (r, s) := by
  obtain ⟨h12, hsx, _⟩ := Record.decode_ok_size h
  unfold Record.decode at h
  dsimp only [] at h
  split at h
  · exact absurd h (by simp)
  · split at h
    · exact absurd h (by simp)
    · split at h
      · exact absurd h (by simp)
      · rename_i hshort hlong hcrc
        simp only [CRC_SIZE] at hshort hlong hcrc h ⊢
        injection h with h
        injection h with hr hs
        have e1 : (ys.drop 0).take 4 = (xs.drop 0).take 4 :=
          (slice_congr hagree (by omega)).symm
        have e2 : (ys.drop 4).take 4 = (xs.drop 4).take 4 :=
          (slice_congr hagree (by omega)).symm
        unfold Record.decode
        dsimp only []
        simp only [CRC_SIZE]
        rw [e1, e2]
        rw [if_neg (by omega), if_neg (by omega)]
        have e3 : (ys.drop (8 + fromLE4 ((xs.drop 0).take 4)
              + fromLE4 ((xs.drop 4).take 4) + 4 - 4)).take 4
            = (xs.drop (8 + fromLE4 ((xs.drop 0).take 4)
              + fromLE4 ((xs.drop 4).take 4) + 4 - 4)).take 4 :=
          (slice_congr hagree (by omega)).symm
        have e4 : ys.take (8 + fromLE4 ((xs.drop 0).take 4)
              + fromLE4 ((xs.drop 4).take 4) + 4 - 4)
            = xs.take (8 + fromLE4 ((xs.drop 0).take 4)
              + fromLE4 ((xs.drop 4).take 4) + 4 - 4) := by
          have := slice_congr (a := 0)
            (b := 8 + fromLE4 ((xs.drop 0).take 4)
              + fromLE4 ((xs.drop 4).take 4) + 4 - 4) hagree (by omega)
          simpa using this.symm
        rw [e3, e4, if_neg hcrc]
        have e5 : (ys.drop 8).take (fromLE4 ((xs.drop 0).take 4))
            = (xs.drop 8).take (fromLE4 ((xs.drop 0).take 4)) :=
          (slice_congr hagree (by omega)).symm
        have e6 : (ys.drop (8 + fromLE4 ((xs.drop 0).take 4))).take
              (fromLE4 ((xs.drop 4).take 4))
            = (xs.drop (8 + fromLE4 ((xs.drop 0).take 4))).take
              (fromLE4 ((xs.drop 4).take 4)) :=
          (slice_congr hagree (by omega)).symm
        rw [e5, e6, hr, hs]

theorem take_len_append {α : Type} (l r : List α) : (l ++ r).take l.length = l := by
  rw [List.take_append_of_le_length (Nat.le_refl _), List.take_length]

theorem drop_len_append {α : Type} (l r : List α) : (l ++ r).drop l.length = r := by
  simp

/-- A write whose offset is exactly the end of file is a plain append:
no gap is zero-filled and no old byte survives past the write. -/
theorem writeAt_eof (f d : List Nat) : writeAt f f.length d = f ++ d := by
  unfold writeAt
  rw [List.take_length, Nat.sub_self, List.replicate_zero,
    List.drop_eq_nil_of_le (by omega)]
  simp

/-- Decoding a buffer that is a well-formed frame (correct lengths and
matching CRC) succeeds and consumes the whole frame. -/
theorem Record.decode_frame {b1 b2 k v cb : List Nat}
    (h1 : b1.length = 4) (h2 : b2.length = 4) (hcb : cb.length = 4)
    (hkl : fromLE4 b1 = k.length) (hvl : fromLE4 b2 = v.length)
    (hcrc : fromLE4 cb = crc32 (b1 ++ (b2 ++ (k ++ v)))) :
    Record.decode ((b1 ++ (b2 ++ (k ++ v))) ++ cb)
      = .ok (⟨k, v⟩, 12 + k.length + v.length) := by
  have hW : (b1 ++ (b2 ++ (k ++ v))).length = 8 + k.length + v.length := by
    simp [List.length_append, h1, h2]
    omega
  have hlen : ((b1 ++ (b2 ++ (k ++ v))) ++ cb).length
      = 12 + k.length + v.length := by
    simp [List.length_append, h1, h2, hcb]
    omega
  have hN : (b1 ++ (b2 ++ (k ++ v))) ++ cb = b1 ++ (b2 ++ (k ++ (v ++ cb))) := by
    simp [List.append_assoc]
  have ha : ((b1 ++ (b2 ++ (k ++ v))) ++ cb).take 4 = b1 := by
    rw [hN, ← h1, take_len_append]
  have hd4 : ((b1 ++ (b2 ++ (k ++ v))) ++ cb).drop 4 = b2 ++ (k ++ (v ++ cb)) := by
    rw [hN, ← h1, drop_len_append]
  have hb : (((b1 ++ (b2 ++ (k ++ v))) ++ cb).drop 4).take 4 = b2 := by
    rw [hd4, ← h2, take_len_append]
  have hd8 : ((b1 ++ (b2 ++ (k ++ v))) ++ cb).drop 8 = k ++ (v ++ cb) := by
    have : (8 : Nat) = 4 + 4 := rfl
    rw [this, ← List.drop_drop, hd4, ← h2, drop_len_append]
  have he : (((b1 ++ (b2 ++ (k ++ v))) ++ cb).drop 8).take k.length = k := by
    rw [hd8, take_len_append]
  have hdk : ((b1 ++ (b2 ++ (k ++ v))) ++ cb).drop (8 + k.length) = v ++ cb := by
    rw [← List.drop_drop, hd8, drop_len_append]
  have hf : (((b1 ++ (b2 ++ (k ++ v))) ++ cb).drop (8 + k.length)).take v.length
      = v := by
    rw [hdk, take_len_append]
  have hc : ((b1 ++ (b2 ++ (k ++ v))) ++ cb).take (8 + k.length + v.length)
      = b1 ++ (b2 ++ (k ++ v)) := by
    rw [← hW, take_len_append]
  have hd : (((b1 ++ (b2 ++ (k ++ v))) ++ cb).drop (8 + k.length + v.length)).take 4
      = cb := by
    rw [← hW, drop_len_append, ← hcb, List.take_length]
  unfold Record.decode
  dsimp only []
  simp only [CRC_SIZE, List.drop_zero]
  rw [ha, hb, hkl, hvl, if_neg (by omega), if_neg (by omega)]
  have harith : 8 + k.length + v.length + 4 - 4 = 8 + k.length + v.length := by
    omega
  rw [harith, hd, hc, hcrc, if_neg (fun hcon => hcon rfl), he, hf]
  have : 8 + k.length + v.length + 4 = 12 + k.length + v.length := by omega
  rw [this]

/-- Round-trip: decoding an encoded record yields the record back and
consumes exactly the frame. -/
theorem Record.decode_encode {k v : List Nat} (hk : ∀ b ∈ k, b < 256)
    (hv : ∀ b ∈ v, b < 256) (hkl : k.length < 2 ^ 32)
    (hvl : v.length < 2 ^ 32) :
    Record.decode (Record.encode ⟨k, v⟩)
      = .ok (⟨k, v⟩, 12 + k.length + v.length) := by
  have hmk : k.length % 2 ^ 32 = k.length := Nat.mod_eq_of_lt hkl
  have hmv : v.length % 2 ^ 32 = v.length := Nat.mod_eq_of_lt hvl
  have hbytes : ∀ b ∈ toLE4 (k.length % 2 ^ 32)
      ++ (toLE4 (v.length % 2 ^ 32) ++ (k ++ v)), b < 256 := by
    intro b hb
    simp only [List.mem_append] at hb
    rcases hb with h | h | h | h
    · exact toLE4_lt _ b h
    · exact toLE4_lt _ b h
    · exact hk b h
    · exact hv b h
  have hshape : Record.encode ⟨k, v⟩
      = (toLE4 (k.length % 2 ^ 32) ++ (toLE4 (v.length % 2 ^ 32) ++ (k ++ v)))
        ++ toLE4 (crc32 (toLE4 (k.length % 2 ^ 32)
          ++ (toLE4 (v.length % 2 ^ 32) ++ (k ++ v)))) := by
    simp [Record.encode, List.append_assoc]
  rw [hshape]
  exact Record.decode_frame (toLE4_length _) (toLE4_length _) (toLE4_length _)
    (by rw [fromLE4_toLE4 (Nat.mod_lt _ (by norm_num)), hmk])
    (by rw [fromLE4_toLE4 (Nat.mod_lt _ (by norm_num)), hmv])
    (fromLE4_toLE4 (crc32_lt hbytes))

/-! ## Recovery-scan lemmas -/

theorem scanFrom_stop {fuel : Nat} {buf : List Nat} {pos : Nat}
    (h : buf.length ≤ pos) : scanFrom fuel buf pos = ([], pos) := by
  cases fuel with
  | zero => rfl
  | succ f =>
    simp only [scanFrom]
    rw [if_neg (by omega)]

theorem scanFrom_le {buf : List Nat} : ∀ {f pos : Nat}, pos ≤ buf.length →
    (scanFrom f buf pos).2 ≤ buf.length := by
  intro f
  induction f with
  | zero => intro pos h; exact h
  | succ f ih =>
    intro pos h
    by_cases hp : pos < buf.length
    · simp only [scanFrom, if_pos hp]
      cases hdec : Record.decode (buf.drop pos) with
      | ok p =>
        obtain ⟨r, size⟩ := p
        obtain ⟨h12, hsz, _⟩ := Record.decode_ok_size hdec
        rw [List.length_drop] at hsz
        exact ih (by omega)
      | error e => exact h
    · simp only [scanFrom, if_neg hp]; exact h

theorem scanFrom_ge {buf : List Nat} : ∀ {f pos : Nat},
    pos ≤ (scanFrom f buf pos).2 := by
  intro f
  induction f with
  | zero => intro pos; exact Nat.le_refl pos
  | succ f ih =>
    intro pos
    by_cases hp : pos < buf.length
    · simp only [scanFrom, if_pos hp]
      cases hdec : Record.decode (buf.drop pos) with
      | ok p =>
        obtain ⟨r, size⟩ := p
        exact Nat.le_trans (Nat.le_add_right pos size) ih
      | error e => exact Nat.le_refl pos
    · simp only [scanFrom, if_neg hp]
      exact Nat.le_refl pos

theorem scanFrom_fuel {buf : List Nat} : ∀ {f1 f2 pos : Nat},
    buf.length - pos ≤ f1 → buf.length - pos ≤ f2 →
    scanFrom f1 buf pos = scanFrom f2 buf pos := by
  intro f1
  induction f1 with
  | zero =>
    intro f2 pos h1 h2
    rw [scanFrom_stop (by omega), scanFrom_stop (by omega)]
  | succ f ih =>
    intro f2 pos h1 h2
    by_cases hp : pos < buf.length
    · cases f2 with
      | zero => omega
      | succ g =>
        simp only [scanFrom, if_pos hp]
        cases hdec : Record.decode (buf.drop pos) with
        | ok p =>
          obtain ⟨r, size⟩ := p
          obtain ⟨h12, hsz, _⟩ := Record.decode_ok_size hdec
          rw [List.length_drop] at hsz
          dsimp only []
          rw [@ih g (pos + size) (by omega) (by omega)]
        | error e => rfl
    · rw [scanFrom_stop (by omega), scanFrom_stop (by omega)]

/-- The final cursor of the scan is the start plus the total encoded
size of the records it found. -/
theorem scanFrom_snd_eq_sum {buf : List Nat} : ∀ {f pos : Nat},
    (scanFrom f buf pos).2
      = pos + (((scanFrom f buf pos).1).map
          (fun rp => (Record.encode rp.1).length)).sum := by
  intro f
  induction f with
  | zero => intro pos; simp [scanFrom]
  | succ f ih =>
    intro pos
    by_cases hp : pos < buf.length
    · simp only [scanFrom, if_pos hp]
      cases hdec : Record.decode (buf.drop pos) with
      | ok p =>
        obtain ⟨r, size⟩ := p
        obtain ⟨h12, hsz, hsize⟩ := Record.decode_ok_size hdec
        dsimp only []
        simp only [List.map_cons, List.sum_cons]
        rw [Record.encode_length, ← hsize, ih]
        omega
      | error e => simp
    · simp only [scanFrom, if_neg hp]
      simp

/-- There is a chain of valid frames in `buf` from offset `p` to
offset `q` (the spec's notion of a contiguous sequence of well-framed
records). -/
inductive ValidTo (buf : List Nat) : Nat → Nat → Prop where
  | refl (p : Nat) : ValidTo buf p p
  | step {p q : Nat} (r : Record) (s : Nat) :
      Record.decode (buf.drop p) = .ok (r, s) → ValidTo buf (p + s) q →
      ValidTo buf p q

theorem scanFrom_validTo {buf : List Nat} : ∀ {f pos : Nat},
    buf.length - pos ≤ f → ValidTo buf pos (scanFrom f buf pos).2 := by
  intro f
  induction f with
  | zero =>
    intro pos h
    exact ValidTo.refl pos
  | succ f ih =>
    intro pos h
    by_cases hp : pos < buf.length
    · simp only [scanFrom, if_pos hp]
      cases hdec : Record.decode (buf.drop pos) with
      | ok p =>
        obtain ⟨r, size⟩ := p
        obtain ⟨h12, hsz, _⟩ := Record.decode_ok_size hdec
        rw [List.length_drop] at hsz
        exact ValidTo.step r size hdec (ih (by omega))
      | error e => exact ValidTo.refl pos
    · simp only [scanFrom, if_neg hp]
      exact ValidTo.refl pos

theorem validTo_le_scanFrom {buf : List Nat} {pos q : Nat}
    (h : ValidTo buf pos q) : ∀ {f : Nat}, buf.length - pos ≤ f →
    q ≤ (scanFrom f buf pos).2 := by
  induction h with
  | refl p => intro f hf; exact scanFrom_ge
  | step r s hdec hrest ih =>
    rename_i p q
    intro f hf
    have hlt : p < buf.length := by
      by_contra hge
      have hnil : buf.drop p = [] := List.drop_eq_nil_of_le (by omega)
      rw [hnil] at hdec
      simp [Record.decode] at hdec
    obtain ⟨h12, hsz, _⟩ := Record.decode_ok_size hdec
    rw [List.length_drop] at hsz
    cases f with
    | zero => omega
    | succ g =>
      simp only [scanFrom, if_pos hlt, hdec]
      exact ih (by omega)

theorem scanFrom_succ_ok {f : Nat} {buf : List Nat} {pos : Nat} {r : Record}
    {size : Nat} (hp : pos < buf.length)
    (hdec : Record.decode (buf.drop pos) = .ok (r, size)) :
    scanFrom (f + 1) buf pos
      = ((r, pos) :: (scanFrom f buf (pos + size)).1,
        (scanFrom f buf (pos + size)).2) := by
  rw [scanFrom, if_pos hp, hdec]

theorem scanFrom_succ_err {f : Nat} {buf : List Nat} {pos : Nat} {e : DecodeErr}
    (hp : pos < buf.length)
    (hdec : Record.decode (buf.drop pos) = .error e) :
    scanFrom (f + 1) buf pos = ([], pos) := by
  rw [scanFrom, if_pos hp, hdec]

/-- Truncating the buffer at the scan's final cursor does not change
the scan: the records, and the final cursor, are identical. -/
theorem scanFrom_take {buf : List Nat} {S : Nat} (hSle : S ≤ buf.length) :
    ∀ {f pos : Nat}, buf.length - pos ≤ f → (scanFrom f buf pos).2 = S →
    scanFrom f (buf.take S) pos = scanFrom f buf pos := by
  intro f
  induction f with
  | zero => intro pos hf hS; rfl
  | succ f ih =>
    intro pos hf hS
    have hlentake : (buf.take S).length = S := by
      rw [List.length_take]
      omega
    by_cases hp : pos < buf.length
    · cases hdec : Record.decode (buf.drop pos) with
      | ok p =>
        obtain ⟨r, size⟩ := p
        rw [scanFrom_succ_ok hp hdec] at hS
        dsimp only [] at hS
        obtain ⟨h12, hsz, _⟩ := Record.decode_ok_size hdec
        rw [List.length_drop] at hsz
        have hge : pos + size ≤ (scanFrom f buf (pos + size)).2 := scanFrom_ge
        have hps : pos + size ≤ S := by omega
        have hdec' : Record.decode ((buf.take S).drop pos) = .ok (r, size) := by
          apply Record.decode_ok_mono hdec
          · rw [List.drop_take, List.take_take]
            have hmin : min size (S - pos) = size := by omega
            rw [hmin]
          · rw [List.length_drop, hlentake]
            omega
        rw [scanFrom_succ_ok (by omega) hdec', scanFrom_succ_ok hp hdec,
          ih (by omega) hS]
      | error e =>
        rw [scanFrom_succ_err hp hdec] at hS
        dsimp only [] at hS
        rw [scanFrom_stop (by omega), scanFrom_succ_err hp hdec]
    · rw [scanFrom_stop (by omega)] at hS
      dsimp only [] at hS
      rw [scanFrom_stop (by omega : (buf.take S).length ≤ pos),
        scanFrom_stop (by omega : buf.length ≤ pos)]

theorem scanFrom_append_at_end {buf enc : List Nat} {r : Record}
    (hdec : Record.decode enc = .ok (r, enc.length)) (f : Nat) :
    scanFrom (f + 1) (buf ++ enc) buf.length
      = ([(r, buf.length)], buf.length + enc.length) := by
  obtain ⟨h12, _, _⟩ := Record.decode_ok_size hdec
  have hlen : (buf ++ enc).length = buf.length + enc.length :=
    List.length_append _ _
  have hdec' : Record.decode ((buf ++ enc).drop buf.length)
      = .ok (r, enc.length) := by rw [drop_len_append]; exact hdec
  rw [scanFrom_succ_ok (by omega) hdec', scanFrom_stop (by omega)]

/-- Appending one exact frame to a buffer whose scan ends exactly at
its end extends the scan by exactly that record. -/
theorem scanFrom_append {buf enc : List Nat} {r : Record}
    (hdec : Record.decode enc = .ok (r, enc.length)) :
    ∀ {f pos : Nat}, (scanFrom f buf pos).2 = buf.length →
    scanFrom (f + 1) (buf ++ enc) pos
      = ((scanFrom f buf pos).1 ++ [(r, buf.length)],
        buf.length + enc.length) := by
  intro f
  induction f with
  | zero =>
    intro pos hS
    dsimp only [scanFrom] at hS
    subst hS
    rw [scanFrom_append_at_end hdec 0]
    rfl
  | succ f ih =>
    intro pos hS
    by_cases hp : pos < buf.length
    · cases hdec' : Record.decode (buf.drop pos) with
      | ok p =>
        obtain ⟨r', size⟩ := p
        rw [scanFrom_succ_ok hp hdec'] at hS
        dsimp only [] at hS
        obtain ⟨h12, hsz, _⟩ := Record.decode_ok_size hdec'
        rw [List.length_drop] at hsz
        have hlen : (buf ++ enc).length = buf.length + enc.length :=
          List.length_append _ _
        have hnew : Record.decode ((buf ++ enc).drop pos) = .ok (r', size) := by
          apply Record.decode_ok_mono hdec'
          · rw [List.drop_append_of_le_length (by omega),
              List.take_append_of_le_length (by rw [List.length_drop]; omega)]
          · rw [List.length_drop, hlen]
            omega
        rw [scanFrom_succ_ok (by omega) hnew, scanFrom_succ_ok hp hdec', ih hS]
        rfl
      | error e =>
        rw [scanFrom_succ_err hp hdec'] at hS
        dsimp only [] at hS
        omega
    · rw [scanFrom_stop (by omega)] at hS
      dsimp only [] at hS
      subst hS
      rw [scanFrom_append_at_end hdec (f + 1), scanFrom_stop (by omega)]
      rfl

/-! ## Index lemmas -/

theorem Index.insert_self (m : Index) (k : List Nat) (v : Nat) :
    (m.insert k v) k = some v := by
  show (if k = k then some v else m k) = some v
  rw [if_pos rfl]

/-- Folding insertions over a record list looks up to the offset of the
last record with the given key, falling back to the initial map. -/
theorem foldl_insert_lookup (records : List (Record × Nat)) (m : Index)
    (k : List Nat) :
    (records.foldl (fun a rp => a.insert rp.1.key rp.2) m) k
      = match records.reverse.find? (fun rp => rp.1.key == k) with
        | some rp => some rp.2
        | none => m k := by
  induction records generalizing m with
  | nil => rfl
  | cons rp rest ih =>
    rw [List.foldl_cons, ih, List.reverse_cons, List.find?_append]
    cases hfind : rest.reverse.find? (fun rp => rp.1.key == k) with
    | some rp' => rfl
    | none =>
      rw [List.find?_singleton]
      dsimp only [Option.or]
      by_cases hk : rp.1.key = k
      · rw [if_pos (by simpa using hk)]
        simp only [Index.insert]
        rw [if_pos hk.symm]
      · rw [if_neg (by simpa using hk)]
        simp only [Index.insert]
        rw [if_neg (fun hcon => hk hcon.symm)]

/-! ## Engine unfolding lemmas -/

/-- Evaluating `put` in `Always` mode with all syscalls succeeding and the
progress sink disabled, as one state equation. -/
theorem Engine.putWith_always (file : List Nat) (index : Index) (pos : Nat)
    (io : IoMode) (wc ls li di : Nat) (prog : Option Nat) (c : Nat)
    (k v torn : List Nat) (now : Nat) :
    Engine.putWith
        ⟨file, index, pos, .always, io, wc, ls, li, di, false, prog, c⟩
        k v torn now true true true
      = (⟨writeAt file c (Record.encode ⟨k, v⟩), index.insert k pos,
          pos + (Record.encode ⟨k, v⟩).length, .always, io, 0, now,
          li + 1, li + 1, false, prog,
          c + (Record.encode ⟨k, v⟩).length⟩, true) := rfl

/-! ## Claim theorems -/

/-- C6: for every key of length at most 1 MiB and value of length at
most 10 MiB (zero-length included), `decode (encode key value)` succeeds
and returns exactly `(key, value)` with consumed size
`8 + |key| + |value| + 4`, which equals the encoded frame's length. -/
theorem C6_encode_decode_roundtrip (k v : List Nat)
    (hk : ∀ b ∈ k, b < 256) (hv : ∀ b ∈ v, b < 256)
    (hkl : k.length ≤ MAX_KEY_LEN) (hvl : v.length ≤ MAX_VAL_LEN) :
    Record.decode (Record.encode ⟨k, v⟩)
      = .ok (⟨k, v⟩, 8 + k.length + v.length + CRC_SIZE)
    ∧ 8 + k.length + v.length + CRC_SIZE = (Record.encode ⟨k, v⟩).length := by
  have hkl' : k.length < 2 ^ 32 := by
    have : MAX_KEY_LEN < 2 ^ 32 := by norm_num [MAX_KEY_LEN]
    omega
  have hvl' : v.length < 2 ^ 32 := by
    have : MAX_VAL_LEN < 2 ^ 32 := by norm_num [MAX_VAL_LEN]
    omega
  have h := Record.decode_encode hk hv hkl' hvl'
  have harith : 8 + k.length + v.length + CRC_SIZE
      = 12 + k.length + v.length := by simp [CRC_SIZE]; omega
  constructor
  · rw [harith, h]
  · rw [harith, Record.encode_length]

theorem C6_encode_decode_roundtrip_witness :
    Record.decode (Record.encode ⟨[97], [49]⟩) = .ok (⟨[97], [49]⟩, 14)
    ∧ (14 : Nat) = (Record.encode ⟨[97], [49]⟩).length :=
  C6_encode_decode_roundtrip [97] [49] (by decide) (by decide)
    (by decide) (by decide)

/-- C9: the function `decode` is total and panic-free: with every Rust slice access
modelled as fallible (`none` = out-of-bounds panic), it always returns
`some` outcome — a decoded record or one of the three errors — so every
slice access in `decode` is preceded by a sufficient length check. -/
theorem C9_decode_total (buf : List Nat) :
    Record.decodeChecked buf = some (Record.decode buf) := by
  by_cases h12 : buf.length < 12
  · unfold Record.decodeChecked Record.decode
    rw [if_pos h12, if_pos h12]
  · unfold Record.decodeChecked Record.decode
    rw [if_neg h12, if_neg h12]
    dsimp only []
    have hc1 : checkedSlice buf 0 4 = some ((buf.take 4).drop 0) :=
      if_pos ⟨by omega, by omega⟩
    have hc2 : checkedSlice buf 4 8 = some ((buf.take 8).drop 4) :=
      if_pos ⟨by omega, by omega⟩
    have e1 : (buf.take 4).drop 0 = (buf.drop 0).take 4 := by
      rw [List.drop_take]
    have e2 : (buf.take 8).drop 4 = (buf.drop 4).take 4 := by
      rw [List.drop_take]
    simp only [Option.bind_eq_bind] at *
    rw [hc1, hc2, Option.some_bind, Option.some_bind, e1, e2]
    set kl := fromLE4 ((buf.drop 0).take 4) with hkldef
    set vl := fromLE4 ((buf.drop 4).take 4) with hvldef
    by_cases htot : buf.length < 8 + kl + vl + CRC_SIZE
    · rw [if_pos htot, if_pos htot]
      rfl
    · rw [if_neg htot, if_neg htot]
      simp only [CRC_SIZE] at htot ⊢
      have hc3 : checkedSlice buf (8 + kl + vl + 4 - 4) (8 + kl + vl + 4)
          = some ((buf.take (8 + kl + vl + 4)).drop (8 + kl + vl + 4 - 4)) :=
        if_pos ⟨by omega, by omega⟩
      have hc4 : checkedSlice buf 0 (8 + kl + vl + 4 - 4)
          = some ((buf.take (8 + kl + vl + 4 - 4)).drop 0) :=
        if_pos ⟨by omega, by omega⟩
      have e3 : (buf.take (8 + kl + vl + 4)).drop (8 + kl + vl + 4 - 4)
          = (buf.drop (8 + kl + vl + 4 - 4)).take 4 := by
        rw [List.drop_take]
        have : 8 + kl + vl + 4 - (8 + kl + vl + 4 - 4) = 4 := by omega
        rw [this]
      have e4 : (buf.take (8 + kl + vl + 4 - 4)).drop 0
          = buf.take (8 + kl + vl + 4 - 4) := List.drop_zero _
      rw [hc3, hc4, Option.some_bind, Option.some_bind, e3, e4]
      by_cases hcrc : fromLE4 ((buf.drop (8 + kl + vl + 4 - 4)).take 4)
          ≠ crc32 (buf.take (8 + kl + vl + 4 - 4))
      · rw [if_pos hcrc, if_pos hcrc]
        rfl
      · rw [if_neg hcrc, if_neg hcrc]
        have hc5 : checkedSlice buf 8 (8 + kl)
            = some ((buf.take (8 + kl)).drop 8) :=
          if_pos ⟨by omega, by omega⟩
        have hc6 : checkedSlice buf (8 + kl) (8 + kl + vl)
            = some ((buf.take (8 + kl + vl)).drop (8 + kl)) :=
          if_pos ⟨by omega, by omega⟩
        have e5 : (buf.take (8 + kl)).drop 8 = (buf.drop 8).take kl := by
          rw [List.drop_take]
          have : 8 + kl - 8 = kl := by omega
          rw [this]
        have e6 : (buf.take (8 + kl + vl)).drop (8 + kl)
            = (buf.drop (8 + kl)).take vl := by
          rw [List.drop_take]
          have : 8 + kl + vl - (8 + kl) = vl := by omega
          rw [this]
        rw [hc5, hc6, Option.some_bind, Option.some_bind, e5, e6]
        rfl

/-- A `put` of any key/value on a freshly opened empty engine in
`Always` mode (all syscalls succeeding) returns `Ok` and writes the
record: no size validation happens anywhere on this path. -/
theorem Engine.putWith_fresh_always_effect (k v : List Nat) :
    (Engine.putWith (Engine.withConfig [] .always .buffered false 0)
        k v [] 0 true true true).2 = true
    ∧ (Engine.putWith (Engine.withConfig [] .always .buffered false 0)
        k v [] 0 true true true).1.logical_index = 1
    ∧ (Engine.putWith (Engine.withConfig [] .always .buffered false 0)
        k v [] 0 true true true).1.durable_index = 1
    ∧ (Engine.putWith (Engine.withConfig [] .always .buffered false 0)
        k v [] 0 true true true).1.file = Record.encode ⟨k, v⟩
    ∧ (Engine.putWith (Engine.withConfig [] .always .buffered false 0)
        k v [] 0 true true true).1.index k = some 0
    ∧ (Record.encode ⟨k, v⟩).length = 12 + k.length + v.length := by
  have hopen : Engine.withConfig [] .always .buffered false 0
      = ⟨[], Index.empty, 0, .always, .buffered, 0, 0, 0, 0, false, none, 0⟩ := rfl
  have hw : writeAt [] 0 (Record.encode ⟨k, v⟩) = Record.encode ⟨k, v⟩ := by
    have := writeAt_eof [] (Record.encode ⟨k, v⟩)
    simpa using this
  rw [hopen, Engine.putWith_always]
  exact ⟨rfl, rfl, rfl, hw,
    Index.insert_self Index.empty k 0, Record.encode_length ⟨k, v⟩⟩

/-- C2 (code bug): `encode` never checks the declared 1 MiB / 10 MiB
caps (the `MAX_KEY_LEN` / `MAX_VAL_LEN` constants in `record.rs` are
unused), so a `put` whose key exceeds 1 MiB does not fail with
`InvalidSize`: the record is encoded and written, all counters advance,
and the index is updated. -/
theorem C2_oversized_put_not_rejected :
    (Engine.putWith (Engine.withConfig [] .always .buffered false 0)
        (List.replicate (MAX_KEY_LEN + 1) 0) [] [] 0 true true true).2 = true
    ∧ (Engine.putWith (Engine.withConfig [] .always .buffered false 0)
        (List.replicate (MAX_KEY_LEN + 1) 0) [] [] 0 true true true).1.logical_index
        = 1
    ∧ (Engine.putWith (Engine.withConfig [] .always .buffered false 0)
        (List.replicate (MAX_KEY_LEN + 1) 0) [] [] 0 true true true).1.durable_index
        = 1
    ∧ (Engine.putWith (Engine.withConfig [] .always .buffered false 0)
        (List.replicate (MAX_KEY_LEN + 1) 0) [] [] 0 true true true).1.file
        = Record.encode ⟨List.replicate (MAX_KEY_LEN + 1) 0, []⟩
    ∧ (Engine.putWith (Engine.withConfig [] .always .buffered false 0)
        (List.replicate (MAX_KEY_LEN + 1) 0) [] [] 0 true true true).1.index
        (List.replicate (MAX_KEY_LEN + 1) 0) = some 0
    ∧ (Record.encode ⟨List.replicate (MAX_KEY_LEN + 1) 0, []⟩).length
        = 12 + (MAX_KEY_LEN + 1) := by
  obtain ⟨h1, h2, h3, h4, h5, h6⟩ :=
    Engine.putWith_fresh_always_effect (List.replicate (MAX_KEY_LEN + 1) 0) []
  rw [List.length_replicate, List.length_nil] at h6
  exact ⟨h1, h2, h3, h4, h5, h6⟩

/-- C5 (amended): when the data-sync syscall fails, `sync` returns the
error and changes nothing.  When `sync` returns `Ok`, it has set
`durable_index ← logical_index`, `write_count ← 0`, `last_sync ← now`,
and published `durable_index` to the progress sink if enabled.  But when
the data-sync succeeds and the progress-file publish then fails, `sync`
returns an error with `durable_index`, `write_count` and `last_sync`
already updated (the code updates the counters before publishing). -/
theorem C5_sync_effects (e : Engine) (now : Nat) (dataSyncOk publishOk : Bool) :
    (dataSyncOk = false →
      Engine.syncWith e now dataSyncOk publishOk = (e, false))
    ∧ ((Engine.syncWith e now dataSyncOk publishOk).2 = true →
        (Engine.syncWith e now dataSyncOk publishOk).1.durable_index
            = e.logical_index
        ∧ (Engine.syncWith e now dataSyncOk publishOk).1.write_count = 0
        ∧ (Engine.syncWith e now dataSyncOk publishOk).1.last_sync = now
        ∧ (e.progressEnabled = true →
            (Engine.syncWith e now dataSyncOk publishOk).1.progress
              = some e.logical_index))
    ∧ (dataSyncOk = true → e.progressEnabled = true → publishOk = false →
        (Engine.syncWith e now dataSyncOk publishOk).2 = false
        ∧ (Engine.syncWith e now dataSyncOk publishOk).1.durable_index
            = e.logical_index
        ∧ (Engine.syncWith e now dataSyncOk publishOk).1.write_count = 0
        ∧ (Engine.syncWith e now dataSyncOk publishOk).1.last_sync = now) := by
  obtain ⟨file, index, pos, mode, io, wc, ls, li, di, pe, pr, cur⟩ := e
  cases dataSyncOk <;> cases publishOk <;> cases pe <;>
    simp [Engine.syncWith]

theorem C5_sync_effects_witness :
    Engine.syncWith (Engine.withConfig [] .always .buffered false 0) 7 false true
      = (Engine.withConfig [] .always .buffered false 0, false) :=
  (C5_sync_effects (Engine.withConfig [] .always .buffered false 0)
    7 false true).1 rfl

/-- C5 counterexample: from a reachable state (open with the progress
sink enabled in Batch(2) mode, one successful unsynced put), a `sync`
whose data-sync succeeds but whose progress-file publish fails returns
an error, yet `durable_index` has moved from 0 to 1, `write_count` was
reset and `last_sync` was advanced — contradicting "whenever sync
returns an error, durable_index, write_count, and last_sync are all
left unchanged". -/
theorem C5_counterexample :
    ((Engine.withConfig [] (.batch 2) .buffered true 0).putWith
        [97] [49] [] 0 true true true).1.durable_index = 0
    ∧ ((Engine.withConfig [] (.batch 2) .buffered true 0).putWith
        [97] [49] [] 0 true true true).1.write_count = 1
    ∧ ((Engine.withConfig [] (.batch 2) .buffered true 0).putWith
        [97] [49] [] 0 true true true).1.last_sync = 0
    ∧ (Engine.syncWith ((Engine.withConfig [] (.batch 2) .buffered true 0).putWith
        [97] [49] [] 0 true true true).1 5 true false).2 = false
    ∧ (Engine.syncWith ((Engine.withConfig [] (.batch 2) .buffered true 0).putWith
        [97] [49] [] 0 true true true).1 5 true false).1.durable_index = 1
    ∧ (Engine.syncWith ((Engine.withConfig [] (.batch 2) .buffered true 0).putWith
        [97] [49] [] 0 true true true).1 5 true false).1.write_count = 0
    ∧ (Engine.syncWith ((Engine.withConfig [] (.batch 2) .buffered true 0).putWith
        [97] [49] [] 0 true true true).1 5 true false).1.last_sync = 5 :=
  ⟨rfl, rfl, rfl, rfl, rfl, rfl, rfl⟩

/-- Every `put` preserves `durable_index ≤ logical_index` and never decreases
`durable_index`, whatever the oracle outcomes. -/
theorem Engine.putWith_counters (e : Engine) (k v torn : List Nat) (now : Nat)
    (w d p : Bool) (hinv : e.durable_index ≤ e.logical_index) :
    e.durable_index ≤ (e.putWith k v torn now w d p).1.durable_index
    ∧ (e.putWith k v torn now w d p).1.durable_index
        ≤ (e.putWith k v torn now w d p).1.logical_index := by
  obtain ⟨file, index, pos, mode, io, wc, ls, li, di, pe, pr, cur⟩ := e
  simp only [Engine.putWith, Engine.syncWith] at *
  cases w <;> cases d <;> cases p <;> cases pe <;> cases mode <;>
    simp_all <;>
    first
      | omega
      | (split <;> simp_all <;> omega)

/-- Every `sync` preserves `durable_index ≤ logical_index` and never
decreases `durable_index`, whatever the oracle outcomes. -/
theorem Engine.syncWith_counters (e : Engine) (now : Nat) (d p : Bool)
    (hinv : e.durable_index ≤ e.logical_index) :
    e.durable_index ≤ (e.syncWith now d p).1.durable_index
    ∧ (e.syncWith now d p).1.durable_index
        ≤ (e.syncWith now d p).1.logical_index := by
  obtain ⟨file, index, pos, mode, io, wc, ls, li, di, pe, pr, cur⟩ := e
  simp only [Engine.syncWith] at *
  cases d <;> cases p <;> cases pe <;> simp_all

/-- Opening sets `durable_index = logical_index` (both to the recovered
record count). -/
theorem Engine.withConfig_durable_eq_logical (f : List Nat) (m : SyncMode)
    (io : IoMode) (c : Bool) (now : Nat) :
    (Engine.withConfig f m io c now).durable_index
      = (Engine.withConfig f m io c now).logical_index := by
  unfold Engine.withConfig Engine.recover
  cases c <;> rfl

/-- C7: in every engine state reachable by any sequence of open, put,
and sync operations — each of which may succeed or fail at any of its
syscalls — `durable_index ≤ logical_index` holds, and `durable_index`
never decreases across any step of the process lifetime. -/
theorem C7_durable_le_logical_and_monotone :
    (∀ e : Engine, Reach e → e.durable_index ≤ e.logical_index)
    ∧ (∀ e e' : Engine, Reach e → Step e e' →
        e.durable_index ≤ e'.durable_index) := by
  have hinv : ∀ e : Engine, Reach e → e.durable_index ≤ e.logical_index := by
    intro e h
    induction h with
    | open_ f m io c now => rw [Engine.withConfig_durable_eq_logical]
    | step hr hs ih =>
      cases hs with
      | put key value torn now w d p =>
        exact (Engine.putWith_counters _ key value torn now w d p ih).2
      | sync now d p => exact (Engine.syncWith_counters _ now d p ih).2
  refine ⟨hinv, ?_⟩
  intro e e' hr hs
  cases hs with
  | put key value torn now w d p =>
    exact (Engine.putWith_counters e key value torn now w d p (hinv e hr)).1
  | sync now d p => exact (Engine.syncWith_counters e now d p (hinv e hr)).1

theorem C7_durable_le_logical_and_monotone_witness :
    (Engine.withConfig [] .always .buffered false 0).durable_index
      ≤ (Engine.withConfig [] .always .buffered false 0).logical_index :=
  C7_durable_le_logical_and_monotone.1
    (Engine.withConfig [] .always .buffered false 0)
    (Reach.open_ [] .always .buffered false 0)

/-- Evaluating `put` in `Batch n` mode with all syscalls succeeding and the
progress sink disabled: the counter increments, and a sync happens
exactly when it reaches `n`. -/
theorem Engine.putWith_batch (file : List Nat) (index : Index) (pos : Nat)
    (n : Nat) (io : IoMode) (wc ls li di : Nat) (pr : Option Nat) (c : Nat)
    (k v torn : List Nat) (now : Nat) :
    Engine.putWith
        ⟨file, index, pos, .batch n, io, wc, ls, li, di, false, pr, c⟩
        k v torn now true true true
      = if n ≤ wc + 1 then
          (⟨writeAt file c (Record.encode ⟨k, v⟩), index.insert k pos,
            pos + (Record.encode ⟨k, v⟩).length, .batch n, io, 0, now,
            li + 1, li + 1, false, pr,
            c + (Record.encode ⟨k, v⟩).length⟩, true)
        else
          (⟨writeAt file c (Record.encode ⟨k, v⟩), index.insert k pos,
            pos + (Record.encode ⟨k, v⟩).length, .batch n, io, wc + 1, ls,
            li + 1, di, false, pr,
            c + (Record.encode ⟨k, v⟩).length⟩, true) := by
  by_cases h : n ≤ wc + 1
  · rw [if_pos h]
    simp [Engine.putWith, Engine.syncWith, h]
  · rw [if_neg h]
    simp [Engine.putWith, Engine.syncWith, h]

theorem Engine.putSeq_cons (e : Engine) (kv : List Nat × List Nat)
    (rest : List (List Nat × List Nat)) (now : Nat) :
    Engine.putSeq e (kv :: rest) now
      = Engine.putSeq (e.putWith kv.1 kv.2 [] now true true true).1 rest now :=
  rfl

/-- Running any sequence of successful puts in `Batch 100` mode keeps
`durable_index = 100·⌊logical_index/100⌋` and
`write_count = logical_index % 100`. -/
theorem Engine.putSeq_batch100_counters (kvs : List (List Nat × List Nat))
    (now : Nat) :
    ∀ e : Engine, e.sync_mode = .batch 100 → e.progressEnabled = false →
      e.durable_index = 100 * (e.logical_index / 100) →
      e.write_count = e.logical_index % 100 →
      (e.putSeq kvs now).sync_mode = .batch 100
      ∧ (e.putSeq kvs now).progressEnabled = false
      ∧ (e.putSeq kvs now).logical_index = e.logical_index + kvs.length
      ∧ (e.putSeq kvs now).durable_index
          = 100 * ((e.logical_index + kvs.length) / 100)
      ∧ (e.putSeq kvs now).write_count
          = (e.logical_index + kvs.length) % 100 := by
  induction kvs with
  | nil =>
    intro e h1 h2 h3 h4
    have hid : e.putSeq [] now = e := rfl
    rw [hid]
    simp only [List.length_nil, Nat.add_zero]
    exact ⟨h1, h2, trivial, h3, h4⟩
  | cons kv rest ih =>
    intro e h1 h2 h3 h4
    obtain ⟨file, index, pos, mode, io, wc, ls, li, di, pe, pr, cur⟩ := e
    simp only at h1 h2 h3 h4
    subst h1
    subst h2
    rw [Engine.putSeq_cons]
    by_cases hcase : 100 ≤ wc + 1
    · have hstep : (Engine.putWith
          ⟨file, index, pos, .batch 100, io, wc, ls, li, di, false, pr, cur⟩
          kv.1 kv.2 [] now true true true).1
          = ⟨writeAt file cur (Record.encode ⟨kv.1, kv.2⟩), index.insert kv.1 pos,
            pos + (Record.encode ⟨kv.1, kv.2⟩).length, .batch 100, io, 0, now,
            li + 1, li + 1, false, pr,
            cur + (Record.encode ⟨kv.1, kv.2⟩).length⟩ := by
        rw [Engine.putWith_batch, if_pos hcase]
      rw [hstep]
      have h := ih ⟨writeAt file cur (Record.encode ⟨kv.1, kv.2⟩), index.insert kv.1 pos,
          pos + (Record.encode ⟨kv.1, kv.2⟩).length, .batch 100, io, 0, now,
          li + 1, li + 1, false, pr,
          cur + (Record.encode ⟨kv.1, kv.2⟩).length⟩ rfl rfl
        (show li + 1 = 100 * ((li + 1) / 100) by omega)
        (show (0 : Nat) = (li + 1) % 100 by omega)
      refine ⟨h.1, h.2.1, ?_, ?_, ?_⟩
      · rw [h.2.2.1]
        show li + 1 + rest.length = li + (kv :: rest).length
        simp only [List.length_cons]
        omega
      · rw [h.2.2.2.1]
        show 100 * ((li + 1 + rest.length) / 100)
          = 100 * ((li + (kv :: rest).length) / 100)
        simp only [List.length_cons]
        congr 1
        omega
      · rw [h.2.2.2.2]
        show (li + 1 + rest.length) % 100 = (li + (kv :: rest).length) % 100
        simp only [List.length_cons]
        congr 1
        omega
    · have hstep : (Engine.putWith
          ⟨file, index, pos, .batch 100, io, wc, ls, li, di, false, pr, cur⟩
          kv.1 kv.2 [] now true true true).1
          = ⟨writeAt file cur (Record.encode ⟨kv.1, kv.2⟩), index.insert kv.1 pos,
            pos + (Record.encode ⟨kv.1, kv.2⟩).length, .batch 100, io, wc + 1,
            ls, li + 1, di, false, pr,
            cur + (Record.encode ⟨kv.1, kv.2⟩).length⟩ := by
        rw [Engine.putWith_batch, if_neg hcase]
      rw [hstep]
      have h := ih ⟨writeAt file cur (Record.encode ⟨kv.1, kv.2⟩), index.insert kv.1 pos,
          pos + (Record.encode ⟨kv.1, kv.2⟩).length, .batch 100, io, wc + 1,
          ls, li + 1, di, false, pr,
          cur + (Record.encode ⟨kv.1, kv.2⟩).length⟩ rfl rfl
        (show di = 100 * ((li + 1) / 100) by omega)
        (show wc + 1 = (li + 1) % 100 by omega)
      refine ⟨h.1, h.2.1, ?_, ?_, ?_⟩
      · rw [h.2.2.1]
        show li + 1 + rest.length = li + (kv :: rest).length
        simp only [List.length_cons]
        omega
      · rw [h.2.2.2.1]
        show 100 * ((li + 1 + rest.length) / 100)
          = 100 * ((li + (kv :: rest).length) / 100)
        simp only [List.length_cons]
        congr 1
        omega
      · rw [h.2.2.2.2]
        show (li + 1 + rest.length) % 100 = (li + (kv :: rest).length) % 100
        simp only [List.length_cons]
        congr 1
        omega

/-- A `sync` with a successful data-sync and the progress sink disabled
raises `durable_index` to `logical_index`. -/
theorem Engine.syncWith_ok_durable (e : Engine)
    (hpe : e.progressEnabled = false) (now : Nat) (p : Bool) :
    (e.syncWith now true p).1.durable_index = e.logical_index := by
  obtain ⟨file, index, pos, mode, io, wc, ls, li, di, pe, pr, cur⟩ := e
  simp only at hpe
  subst hpe
  rfl

/-- C8: opening an empty path with `Batch(100)` and performing 250
successful puts (no explicit syncs) leaves `durable_index = 200` and
`logical_index = 250`; after any first `i ≤ 250` of those puts
`durable_index = 100·⌊i/100⌋`, so the internal syncs are triggered
exactly by the 100th and the 200th put; one subsequent explicit `sync`
raises `durable_index` to 250. -/
theorem C8_batch100_durability (kvs : List (List Nat × List Nat))
    (h250 : kvs.length = 250) (now0 now1 now2 : Nat) :
    ((Engine.withConfig [] (.batch 100) .buffered false now0).putSeq
        kvs now1).durable_index = 200
    ∧ ((Engine.withConfig [] (.batch 100) .buffered false now0).putSeq
        kvs now1).logical_index = 250
    ∧ (∀ i : Nat, i ≤ 250 →
        ((Engine.withConfig [] (.batch 100) .buffered false now0).putSeq
            (kvs.take i) now1).durable_index = 100 * (i / 100))
    ∧ (((Engine.withConfig [] (.batch 100) .buffered false now0).putSeq
        kvs now1).syncWith now2 true true).1.durable_index = 250 := by
  have hopen : Engine.withConfig [] (.batch 100) .buffered false now0
      = ⟨[], Index.empty, 0, .batch 100, .buffered, 0, now0, 0, 0, false,
        none, 0⟩ := rfl
  rw [hopen]
  obtain ⟨hm, hpe, hlog, hdur, hwc⟩ :=
    Engine.putSeq_batch100_counters kvs now1
      ⟨[], Index.empty, 0, .batch 100, .buffered, 0, now0, 0, 0, false, none, 0⟩
      rfl rfl (show (0 : Nat) = 100 * (0 / 100) by omega)
      (show (0 : Nat) = 0 % 100 by omega)
  rw [h250] at hdur hlog
  refine ⟨?_, ?_, ?_, ?_⟩
  · rw [hdur]
    show (100 : Nat) * ((0 + 250) / 100) = 200
    norm_num
  · rw [hlog]
  · intro i hi
    obtain ⟨_, _, _, hdur', _⟩ :=
      Engine.putSeq_batch100_counters (kvs.take i) now1
        ⟨[], Index.empty, 0, .batch 100, .buffered, 0, now0, 0, 0, false, none, 0⟩
        rfl rfl (show (0 : Nat) = 100 * (0 / 100) by omega)
        (show (0 : Nat) = 0 % 100 by omega)
    rw [List.length_take, h250] at hdur'
    rw [hdur']
    have hz : (⟨[], Index.empty, 0, .batch 100, .buffered, 0, now0, 0, 0,
        false, none, 0⟩ : Engine).logical_index = 0 := rfl
    rw [hz]
    congr 1
    omega
  · rw [Engine.syncWith_ok_durable _ hpe, hlog]

theorem C8_batch100_durability_witness :
    ((Engine.withConfig [] (.batch 100) .buffered false 0).putSeq
        (List.replicate 250 (([], []) : List Nat × List Nat)) 0).durable_index
        = 200
    ∧ ((Engine.withConfig [] (.batch 100) .buffered false 0).putSeq
        (List.replicate 250 (([], []) : List Nat × List Nat)) 0).logical_index
        = 250
    ∧ ((Engine.withConfig [] (.batch 100) .buffered false 0).putSeq
        ((List.replicate 250 (([], []) : List Nat × List Nat)).take 100)
          0).durable_index = 100 * (100 / 100)
    ∧ (((Engine.withConfig [] (.batch 100) .buffered false 0).putSeq
        (List.replicate 250 (([], []) : List Nat × List Nat)) 0).syncWith
          0 true true).1.durable_index = 250 :=
  let h := C8_batch100_durability
    (List.replicate 250 (([], []) : List Nat × List Nat)) (by simp) 0 0 0
  ⟨h.1, h.2.1, h.2.2.1 100 (by omega), h.2.2.2⟩

/-- `with_config` sets the recovered index, cursor, counters and
truncated file, whether or not the progress sink is enabled. -/
theorem Engine.withConfig_fields (f : List Nat) (m : SyncMode) (io : IoMode)
    (c : Bool) (now : Nat) :
    (Engine.withConfig f m io c now).index
        = (recoverScan f).1.foldl (fun a rp => a.insert rp.1.key rp.2)
          Index.empty
    ∧ (Engine.withConfig f m io c now).pos = (recoverScan f).2
    ∧ (Engine.withConfig f m io c now).logical_index
        = (recoverScan f).1.length
    ∧ (Engine.withConfig f m io c now).durable_index
        = (recoverScan f).1.length
    ∧ (Engine.withConfig f m io c now).file = f.take (recoverScan f).2 := by
  unfold Engine.withConfig Engine.recover
  cases c <;> exact ⟨rfl, rfl, rfl, rfl, rfl⟩

/-- After an open, the kernel file offset sits at the end of the bytes
that `read_to_end` read — the pre-truncation file length — because the
guarded `set_len` does not move it. -/
theorem Engine.withConfig_fileCursor (f : List Nat) (m : SyncMode)
    (io : IoMode) (c : Bool) (now : Nat) :
    (Engine.withConfig f m io c now).fileCursor = f.length := by
  unfold Engine.withConfig Engine.recover
  cases c <;> rfl

/-- C1: opening the engine on any initial file content rebuilds the
state from the longest valid frame prefix: the scan cursor is exactly
the longest offset reachable by a chain of valid frames from 0; the
index's key set equals the set of keys of the records in that prefix;
each key maps to the offset of the last record in the prefix carrying
it; `logical_index` and `durable_index` equal the number of records in
the prefix; and the file is truncated to the prefix's length. -/
theorem C1_recover_rebuilds_index (buf : List Nat) (m : SyncMode)
    (io : IoMode) (c : Bool) (now : Nat) :
    ValidTo buf 0 (recoverScan buf).2
    ∧ (∀ q : Nat, ValidTo buf 0 q → q ≤ (recoverScan buf).2)
    ∧ (∀ k : List Nat, (Engine.withConfig buf m io c now).contains_key k
        ↔ k ∈ (recoverScan buf).1.map (fun rp => rp.1.key))
    ∧ (∀ k : List Nat, (Engine.withConfig buf m io c now).index k
        = ((recoverScan buf).1.reverse.find?
            (fun rp => rp.1.key == k)).map (fun rp => rp.2))
    ∧ (Engine.withConfig buf m io c now).logical_index
        = (recoverScan buf).1.length
    ∧ (Engine.withConfig buf m io c now).durable_index
        = (recoverScan buf).1.length
    ∧ (Engine.withConfig buf m io c now).file
        = buf.take (recoverScan buf).2
    ∧ (Engine.withConfig buf m io c now).file.length
        = (recoverScan buf).2 := by
  obtain ⟨hidx, hpos, hlog, hdur, hfile⟩ :=
    Engine.withConfig_fields buf m io c now
  have hlookup : ∀ k : List Nat, (Engine.withConfig buf m io c now).index k
      = ((recoverScan buf).1.reverse.find?
          (fun rp => rp.1.key == k)).map (fun rp => rp.2) := by
    intro k
    rw [hidx, foldl_insert_lookup]
    cases hfind : (recoverScan buf).1.reverse.find? (fun rp => rp.1.key == k)
      with
    | some rp => rfl
    | none => rfl
  refine ⟨?_, ?_, ?_, hlookup, hlog, hdur, hfile, ?_⟩
  · exact scanFrom_validTo (by omega)
  · intro q hq
    exact validTo_le_scanFrom hq (by omega)
  · intro k
    unfold Engine.contains_key
    rw [hlookup k]
    cases hfind : (recoverScan buf).1.reverse.find? (fun rp => rp.1.key == k)
      with
    | some rp =>
      have hmem : rp ∈ (recoverScan buf).1.reverse :=
        List.mem_of_find?_eq_some hfind
      have hp := List.find?_some hfind
      rw [List.mem_reverse] at hmem
      simp only [Option.map_some', Option.isSome_some, List.mem_map]
      exact ⟨fun _ => ⟨rp, hmem, by simpa using hp⟩, fun _ => trivial⟩
    | none =>
      rw [List.find?_eq_none] at hfind
      simp only [Option.map_none', Option.isSome_none, List.mem_map]
      constructor
      · intro hfalse
        exact absurd hfalse (by simp)
      · rintro ⟨rp, hrp, hk⟩
        exact absurd (hfind rp (List.mem_reverse.mpr hrp) (by simpa using hk))
          not_false
  · rw [hfile, List.length_take]
    have hle := @scanFrom_le buf (buf.length + 1) 0 (by omega)
    have hrs : (recoverScan buf).2 = (scanFrom (buf.length + 1) buf 0).2 := rfl
    omega

theorem C1_recover_rebuilds_index_witness :
    ((Engine.withConfig (Record.encode ⟨[97], [49]⟩ ++ [1, 2, 3])
        .always .buffered false 0).contains_key [97] = true)
    ∧ (Engine.withConfig (Record.encode ⟨[97], [49]⟩ ++ [1, 2, 3])
        .always .buffered false 0).index [97] = some 0
    ∧ (Engine.withConfig (Record.encode ⟨[97], [49]⟩ ++ [1, 2, 3])
        .always .buffered false 0).file.length = 14
    ∧ (Engine.withConfig (Record.encode ⟨[97], [49]⟩ ++ [1, 2, 3])
        .always .buffered false 0).logical_index = 1 := by
  have h := C1_recover_rebuilds_index
    (Record.encode ⟨[97], [49]⟩ ++ [1, 2, 3]) .always .buffered false 0
  refine ⟨?_, ?_, ?_, ?_⟩
  · rw [(h.2.2.1 [97]).mpr]
    decide
  · rw [h.2.2.2.1 [97]]
    decide
  · rw [h.2.2.2.2.2.2.2]
    decide
  · rw [h.2.2.2.2.1]
    decide

/-- Scanning the file truncated at its own scan cursor reproduces the
scan exactly. -/
theorem recoverScan_take (buf : List Nat) :
    recoverScan (buf.take (recoverScan buf).2) = recoverScan buf := by
  have hS : (recoverScan buf).2 ≤ buf.length :=
    @scanFrom_le buf (buf.length + 1) 0 (by omega)
  have hlen : (buf.take (recoverScan buf).2).length = (recoverScan buf).2 := by
    rw [List.length_take]
    omega
  show scanFrom ((buf.take (recoverScan buf).2).length + 1)
      (buf.take (recoverScan buf).2) 0 = recoverScan buf
  rw [@scanFrom_fuel (buf.take (recoverScan buf).2)
    ((buf.take (recoverScan buf).2).length + 1) (buf.length + 1) 0
    (by rw [hlen]; omega) (by rw [hlen]; omega)]
  exact scanFrom_take hS (by omega) rfl

/-- C10: recovery is idempotent.  Opening a second time on the file
left by a first open (no intervening puts or syncs) yields the same
index, cursor, `logical_index` and `durable_index`, leaves the file
unchanged, and performs no truncation: the file content left by the
first open is a fixed point of the recovery scan. -/
theorem C10_recover_idempotent (buf : List Nat) (m m2 : SyncMode)
    (io io2 : IoMode) (c c2 : Bool) (now now2 : Nat) :
    (Engine.withConfig (Engine.withConfig buf m io c now).file
        m2 io2 c2 now2).index = (Engine.withConfig buf m io c now).index
    ∧ (Engine.withConfig (Engine.withConfig buf m io c now).file
        m2 io2 c2 now2).pos = (Engine.withConfig buf m io c now).pos
    ∧ (Engine.withConfig (Engine.withConfig buf m io c now).file
        m2 io2 c2 now2).logical_index
        = (Engine.withConfig buf m io c now).logical_index
    ∧ (Engine.withConfig (Engine.withConfig buf m io c now).file
        m2 io2 c2 now2).durable_index
        = (Engine.withConfig buf m io c now).durable_index
    ∧ (Engine.withConfig (Engine.withConfig buf m io c now).file
        m2 io2 c2 now2).file = (Engine.withConfig buf m io c now).file
    ∧ ¬ recoverTruncates (Engine.withConfig buf m io c now).file := by
  obtain ⟨hidx1, hpos1, hlog1, hdur1, hfile1⟩ :=
    Engine.withConfig_fields buf m io c now
  obtain ⟨hidx2, hpos2, hlog2, hdur2, hfile2⟩ :=
    Engine.withConfig_fields (Engine.withConfig buf m io c now).file
      m2 io2 c2 now2
  have hscan : recoverScan (Engine.withConfig buf m io c now).file
      = recoverScan buf := by
    rw [hfile1]
    exact recoverScan_take buf
  have hlen : (Engine.withConfig buf m io c now).file.length
      = (recoverScan buf).2 := by
    rw [hfile1, List.length_take]
    have hS : (recoverScan buf).2 ≤ buf.length :=
      @scanFrom_le buf (buf.length + 1) 0 (by omega)
    omega
  refine ⟨?_, ?_, ?_, ?_, ?_, ?_⟩
  · rw [hidx2, hscan, hidx1]
  · rw [hpos2, hscan, hpos1]
  · rw [hlog2, hscan, hlog1]
  · rw [hdur2, hscan, hdur1]
  · rw [hfile2, hscan, ← hlen, List.take_length]
  · unfold recoverTruncates
    rw [hscan, hlen]
    omega

/-- When the kernel file offset sits at the end of file, a fully
successful `put` appends the encoded record to the file and advances
both `pos` and the file offset by its length, in every sync mode. -/
theorem Engine.putWith_ok_file_pos (e : Engine) (k v : List Nat) (now : Nat)
    (hc : e.fileCursor = e.file.length) :
    (e.putWith k v [] now true true true).1.file
        = e.file ++ Record.encode ⟨k, v⟩
    ∧ (e.putWith k v [] now true true true).1.pos
        = e.pos + (Record.encode ⟨k, v⟩).length
    ∧ (e.putWith k v [] now true true true).1.fileCursor
        = e.fileCursor + (Record.encode ⟨k, v⟩).length := by
  obtain ⟨file, index, pos, mode, io, wc, ls, li, di, pe, pr, cur⟩ := e
  simp only at hc
  subst hc
  cases pe <;> cases mode <;>
    simp [Engine.putWith, Engine.syncWith, writeAt_eof] <;> split <;>
    simp [writeAt_eof]

/-- A standalone `sync` never changes the file bytes, the write
position `pos`, or the kernel file offset. -/
theorem Engine.syncWith_file_pos (e : Engine) (now : Nat) (d p : Bool) :
    (e.syncWith now d p).1.file = e.file
    ∧ (e.syncWith now d p).1.pos = e.pos
    ∧ (e.syncWith now d p).1.fileCursor = e.fileCursor := by
  obtain ⟨file, index, pos, mode, io, wc, ls, li, di, pe, pr, cur⟩ := e
  cases d <;> cases p <;> cases pe <;> simp [Engine.syncWith]

/-- Appending one exact frame to a scan-exact file extends the recovery
scan by that record and keeps it scan-exact. -/
theorem recoverScan_append {buf enc : List Nat} {r : Record}
    (hdec : Record.decode enc = .ok (r, enc.length))
    (hex : (recoverScan buf).2 = buf.length) :
    recoverScan (buf ++ enc)
      = ((recoverScan buf).1 ++ [(r, buf.length)],
        buf.length + enc.length) := by
  obtain ⟨h12, _, _⟩ := Record.decode_ok_size hdec
  have hflen : (buf ++ enc).length = buf.length + enc.length :=
    List.length_append _ _
  have h1 : scanFrom (buf.length + enc.length) buf 0
      = scanFrom (buf.length + 1) buf 0 :=
    scanFrom_fuel (by omega) (by omega)
  have h2 := @scanFrom_append buf enc r hdec (buf.length + enc.length) 0
    (by rw [h1]; exact hex)
  show scanFrom ((buf ++ enc).length + 1) (buf ++ enc) 0 = _
  rw [hflen, h2, h1]
  rfl

/-- Reachable-with-successful-puts states are scan-exact: `pos` and the
kernel file offset both sit at the end of the file and the whole file
is the valid prefix.  This is where the clean-open hypothesis is
needed: a truncating open leaves the file offset beyond the new end of
file, and the next put would zero-fill a gap. -/
theorem ReachPutOk.scan_exact {e : Engine} (h : ReachPutOk e) :
    e.pos = e.file.length ∧ (recoverScan e.file).2 = e.file.length
    ∧ e.fileCursor = e.file.length := by
  induction h with
  | open_ f m io c now hclean =>
    obtain ⟨_, hpos, _, _, hfile⟩ := Engine.withConfig_fields f m io c now
    have hcur := Engine.withConfig_fileCursor f m io c now
    have hfile' : (Engine.withConfig f m io c now).file = f := by
      rw [hfile, hclean, List.take_length]
    refine ⟨?_, ?_, ?_⟩
    · rw [hpos, hfile', hclean]
    · rw [hfile']
      exact hclean
    · rw [hcur, hfile']
  | step hr hs ih =>
    obtain ⟨hpos, hexact, hcur⟩ := ih
    cases hs with
    | put key value now hk hv hkl hvl =>
      rename_i e'
      obtain ⟨hfile', hpos', hcur'⟩ :=
        Engine.putWith_ok_file_pos e' key value now (by rw [hcur])
      have hdec : Record.decode (Record.encode ⟨key, value⟩)
          = .ok (⟨key, value⟩, (Record.encode ⟨key, value⟩).length) := by
        rw [Record.encode_length]
        exact Record.decode_encode hk hv hkl hvl
      have happ := recoverScan_append hdec hexact
      refine ⟨?_, ?_, ?_⟩
      · rw [hpos', hfile', List.length_append, hpos]
      · rw [hfile', happ]
        dsimp only []
        rw [List.length_append]
      · rw [hcur', hfile', List.length_append, hcur]
    | sync now d p =>
      rename_i e'
      obtain ⟨hfile', hpos', hcur'⟩ := Engine.syncWith_file_pos e' now d p
      exact ⟨by rw [hpos', hfile', hpos],
        by rw [hfile']; exact hexact,
        by rw [hcur', hfile', hcur]⟩

/-- C3 (amended): in every state reachable by an open whose recovery
performed no truncation, followed by operations in which every `put`
succeeded (standalone `sync` calls may succeed or fail), `pos` equals
the sum of the encoded sizes of the records in the valid prefix of the
log, and `pos` equals the current file length — in particular
immediately after a successful sync.  Both restrictions are necessary:
a `put` that fails at its internal sync step leaves `pos` stale behind
the written record, and a successful `put` right after a truncating
open writes at the stale kernel file offset, zero-filling a gap past
the truncated end of file (see the counterexample). -/
theorem C3_pos_invariant (e : Engine) (h : ReachPutOk e) :
    e.pos = (((recoverScan e.file).1).map
        (fun rp => (Record.encode rp.1).length)).sum
    ∧ e.pos = e.file.length := by
  obtain ⟨hpos, hexact, _⟩ := ReachPutOk.scan_exact h
  refine ⟨?_, hpos⟩
  have hsum := @scanFrom_snd_eq_sum e.file (e.file.length + 1) 0
  have : (recoverScan e.file).2 = 0 + (((recoverScan e.file).1).map
      (fun rp => (Record.encode rp.1).length)).sum := hsum
  omega

theorem C3_pos_invariant_witness :
    (((Engine.withConfig [] .always .buffered false 0).putWith
        [97] [49] [] 0 true true true).1.pos
      = (((recoverScan ((Engine.withConfig [] .always .buffered false 0).putWith
          [97] [49] [] 0 true true true).1.file).1).map
          (fun rp => (Record.encode rp.1).length)).sum)
    ∧ ((Engine.withConfig [] .always .buffered false 0).putWith
        [97] [49] [] 0 true true true).1.pos
      = ((Engine.withConfig [] .always .buffered false 0).putWith
          [97] [49] [] 0 true true true).1.file.length :=
  C3_pos_invariant _
    (ReachPutOk.step
      (ReachPutOk.open_ [] .always .buffered false 0 (by decide))
      (StepPutOk.put _ [97] [49] 0 (by decide) (by decide)
        (by decide) (by decide)))

/-- C3 counterexample: opening on a valid 14-byte record followed by a
3-byte torn tail truncates the file to 14 bytes but leaves the kernel
file offset at 17, so the next fully successful `put` (write, sync and
publish all `Ok`) writes its 14-byte record at offset 17, zero-filling
bytes 14–16: afterwards `pos` is 28 while the file is 31 bytes long and
its valid prefix sums to only 14 bytes, falsifying both equalities of
the claim even though every `put` succeeded. -/
theorem C3_counterexample :
    ((Engine.withConfig (Record.encode ⟨[97], [49]⟩ ++ [1, 2, 3])
        .always .buffered false 0).putWith [98] [50] [] 0 true true true).2
        = true
    ∧ ((Engine.withConfig (Record.encode ⟨[97], [49]⟩ ++ [1, 2, 3])
        .always .buffered false 0).putWith [98] [50] [] 0 true true true).1.pos
        = 28
    ∧ ((Engine.withConfig (Record.encode ⟨[97], [49]⟩ ++ [1, 2, 3])
        .always .buffered false 0).putWith
          [98] [50] [] 0 true true true).1.file.length = 31
    ∧ (recoverScan ((Engine.withConfig (Record.encode ⟨[97], [49]⟩ ++ [1, 2, 3])
        .always .buffered false 0).putWith
          [98] [50] [] 0 true true true).1.file).2 = 14
    ∧ ((((recoverScan ((Engine.withConfig
        (Record.encode ⟨[97], [49]⟩ ++ [1, 2, 3])
        .always .buffered false 0).putWith
          [98] [50] [] 0 true true true).1.file).1).map
        (fun rp => (Record.encode rp.1).length)).sum) = 14 := by
  refine ⟨rfl, rfl, ?_, ?_, ?_⟩ <;> decide

theorem xor_two_pow_ne (x t : Nat) : x ^^^ 2 ^ t ≠ x := by
  intro h
  have h0 : x ^^^ 2 ^ t = x ^^^ 0 := by rw [Nat.xor_zero, h]
  have h1 : 2 ^ t = 0 := Nat.xor_right_inj.mp h0
  have := Nat.two_pow_pos t
  omega

theorem take_set_of_le {α : Type} (l : List α) (j n : Nat) (x : α)
    (h : n ≤ j) : (l.set j x).take n = l.take n := by
  rcases Nat.lt_or_ge n j with hlt | hge
  · exact List.take_set_of_lt x l hlt
  · have hnj : n = j := by omega
    subst hnj
    rw [List.set_eq_take_append_cons_drop]
    split
    · rename_i hj
      rw [List.take_append_of_le_length (by rw [List.length_take]; omega),
        List.take_take]
      simp
    · rfl

/-- Decoding a buffer shaped as `W ++ cb` with self-consistent declared
lengths but a CRC field that does not match yields `CrcMismatch`. -/
theorem Record.decode_mismatch {W cb : List Nat} (hW : 8 ≤ W.length)
    (hcb : cb.length = 4)
    (hparse : 8 + fromLE4 (W.take 4) + fromLE4 ((W.drop 4).take 4)
        = W.length)
    (hne : fromLE4 cb ≠ crc32 W) :
    Record.decode (W ++ cb) = .error .crcMismatch := by
  have hlen : (W ++ cb).length = W.length + 4 := by
    rw [List.length_append, hcb]
  have e1 : (W ++ cb).take 4 = W.take 4 :=
    List.take_append_of_le_length (by omega)
  have e2 : ((W ++ cb).drop 4).take 4 = (W.drop 4).take 4 := by
    rw [List.drop_append_of_le_length (by omega)]
    exact List.take_append_of_le_length (by rw [List.length_drop]; omega)
  have e3 : (W ++ cb).take W.length = W := take_len_append W cb
  have e4 : ((W ++ cb).drop W.length).take 4 = cb := by
    rw [drop_len_append, ← hcb, List.take_length]
  unfold Record.decode
  dsimp only []
  simp only [CRC_SIZE, List.drop_zero]
  rw [e1, e2, if_neg (by omega), if_neg (by omega)]
  have harith : 8 + fromLE4 (W.take 4) + fromLE4 ((W.drop 4).take 4) + 4 - 4
      = W.length := by omega
  rw [harith, e4, e3, if_pos hne]

/-- C4 (amended): for a well-formed frame and any single bit position
at or beyond bit 64 — i.e. any flip outside the two length fields, so
anywhere in the key, the value, or the CRC — decoding the flipped frame
returns `CrcMismatch` (in particular never a different `(key, value)`
pair).  Flips inside the length fields can yield `Incomplete` or, for
adversarial frame contents, a successful decode of a different record
(see the counterexample). -/
theorem C4_flip_outside_lengths_detected (k v : List Nat)
    (hk : ∀ b ∈ k, b < 256) (hv : ∀ b ∈ v, b < 256)
    (hkl : k.length ≤ MAX_KEY_LEN) (hvl : v.length ≤ MAX_VAL_LEN)
    (i : Nat) (hi64 : 64 ≤ i)
    (hilt : i < 8 * (Record.encode ⟨k, v⟩).length) :
    Record.decode (flipBit (Record.encode ⟨k, v⟩) i)
      = .error .crcMismatch := by
  have hmk : k.length % 2 ^ 32 = k.length := by
    have : MAX_KEY_LEN < 2 ^ 32 := by norm_num [MAX_KEY_LEN]
    exact Nat.mod_eq_of_lt (by omega)
  have hmv : v.length % 2 ^ 32 = v.length := by
    have : MAX_VAL_LEN < 2 ^ 32 := by norm_num [MAX_VAL_LEN]
    exact Nat.mod_eq_of_lt (by omega)
  have hshape : Record.encode ⟨k, v⟩
      = (toLE4 (k.length % 2 ^ 32) ++ (toLE4 (v.length % 2 ^ 32) ++ (k ++ v)))
        ++ toLE4 (crc32 (toLE4 (k.length % 2 ^ 32)
          ++ (toLE4 (v.length % 2 ^ 32) ++ (k ++ v)))) := by
    simp [Record.encode, List.append_assoc]
  set B := toLE4 (k.length % 2 ^ 32) ++ (toLE4 (v.length % 2 ^ 32) ++ (k ++ v))
    with hBdef
  set C := toLE4 (crc32 B) with hCdef
  have hBlen : B.length = 8 + k.length + v.length := by
    rw [hBdef]
    simp only [List.length_append, toLE4, List.length_cons, List.length_nil]
    omega
  have hBbytes : ∀ b ∈ B, b < 256 := by
    intro b hb
    rw [hBdef] at hb
    simp only [List.mem_append] at hb
    rcases hb with h | h | h | h
    · exact toLE4_lt _ b h
    · exact toLE4_lt _ b h
    · exact hk b h
    · exact hv b h
  have hClen : C.length = 4 := toLE4_length _
  have hCvalue : fromLE4 C = crc32 B := fromLE4_toLE4 (crc32_lt hBbytes)
  have hflen : (Record.encode ⟨k, v⟩).length = B.length + 4 := by
    rw [hshape, List.length_append, hClen]
  have hA1 : B.take 4 = toLE4 (k.length % 2 ^ 32) := by
    rw [hBdef]
    rw [show (4 : Nat) = (toLE4 (k.length % 2 ^ 32)).length from
      (toLE4_length _).symm]
    exact take_len_append _ _
  have hA2 : (B.drop 4).take 4 = toLE4 (v.length % 2 ^ 32) := by
    rw [hBdef]
    rw [show (4 : Nat) = (toLE4 (k.length % 2 ^ 32)).length from
      (toLE4_length _).symm]
    rw [drop_len_append]
    rw [show (toLE4 (k.length % 2 ^ 32)).length
      = (toLE4 (v.length % 2 ^ 32)).length from rfl]
    exact take_len_append _ _
  have hparseB : 8 + fromLE4 (B.take 4) + fromLE4 ((B.drop 4).take 4)
      = B.length := by
    rw [hA1, hA2, fromLE4_toLE4 (Nat.mod_lt _ (by norm_num)),
      fromLE4_toLE4 (Nat.mod_lt _ (by norm_num)), hmk, hmv, hBlen]
  have ht : i % 8 < 8 := Nat.mod_lt _ (by omega)
  have hj8 : 8 ≤ i / 8 := by omega
  have hjlen : i / 8 < B.length + 4 := by
    rw [hflen] at hilt
    omega
  rw [hshape]
  simp only [flipBit]
  by_cases hcase : i / 8 < B.length
  · -- flip lands in the key/value region: the CRC over the data changes
    have hgetD : (B ++ C).getD (i / 8) 0 = B.getD (i / 8) 0 :=
      List.getD_append B C 0 (i / 8) hcase
    rw [hgetD, List.set_append_left _ _ hcase]
    apply Record.decode_mismatch
    · rw [List.length_set]
      omega
    · exact hClen
    · have h1 : (B.set (i / 8) (B.getD (i / 8) 0 ^^^ 2 ^ (i % 8))).take 4
          = B.take 4 := take_set_of_le _ _ _ _ (by omega)
      have h8 : (B.set (i / 8) (B.getD (i / 8) 0 ^^^ 2 ^ (i % 8))).take 8
          = B.take 8 := take_set_of_le _ _ _ _ (by omega)
      have h2 : ((B.set (i / 8) (B.getD (i / 8) 0 ^^^ 2 ^ (i % 8))).drop 4).take 4
          = (B.drop 4).take 4 := by
        have hx := List.drop_take 8 4
          (B.set (i / 8) (B.getD (i / 8) 0 ^^^ 2 ^ (i % 8)))
        have hy := List.drop_take 8 4 B
        rw [← hx, ← hy, h8]
      rw [h1, h2, List.length_set]
      exact hparseB
    · rw [hCvalue]
      exact (crc32_flipBit_ne hBbytes hcase ht).symm
  · -- flip lands in the CRC field: the stored CRC changes
    have hge : B.length ≤ i / 8 := by omega
    have hgetD : (B ++ C).getD (i / 8) 0 = C.getD (i / 8 - B.length) 0 :=
      List.getD_append_right B C 0 (i / 8) hge
    rw [hgetD, List.set_append_right _ _ hge]
    apply Record.decode_mismatch
    · omega
    · rw [List.length_set]
      exact hClen
    · exact hparseB
    · rw [← hCvalue]
      set m := i / 8 - B.length with hmdef
      have hm : m < 4 := by omega
      set c := crc32 B with hcdef
      intro hcon
      rw [hCdef] at hcon
      simp only [toLE4] at hcon
      interval_cases m <;>
        simp only [List.set_cons_zero, List.set_cons_succ,
          List.getD_cons_zero, List.getD_cons_succ, fromLE4] at hcon <;>
        [have hxne := xor_two_pow_ne (c % 256) (i % 8);
         have hxne := xor_two_pow_ne (c / 256 % 256) (i % 8);
         have hxne := xor_two_pow_ne (c / 65536 % 256) (i % 8);
         have hxne := xor_two_pow_ne (c / 16777216 % 256) (i % 8)] <;>
        omega

theorem C4_flip_outside_lengths_detected_witness :
    Record.decode (flipBit (Record.encode ⟨[97], [49]⟩) 64)
      = .error .crcMismatch :=
  C4_flip_outside_lengths_detected [97] [49] (by decide) (by decide)
    (by decide) (by decide) 64 (by decide) (by decide)

/-- C4 counterexample: a single bit flip inside the `val_len` length
field of a well-formed frame can make `decode` succeed and return a
different `(key, value)` pair.  The frame encodes
`(key, value) = ([], [0x69, 0xDF, 0x22, 0x65])`, whose value bytes are
exactly the little-endian CRC-32 of eight zero bytes; flipping bit 2 of
byte 4 turns `val_len` from 4 into 0, and the first four value bytes
are then read as a matching CRC, so decode returns `([], [])` — not
`CrcMismatch` or `Incomplete`. -/
theorem C4_counterexample :
    Record.decode (flipBit (Record.encode ⟨[], [105, 223, 34, 101]⟩) 34)
      = .ok (⟨[], []⟩, 12)
    ∧ (⟨[], []⟩ : Record) ≠ ⟨[], [105, 223, 34, 101]⟩ := by
  constructor
  · decide
  · decide

end MiniKv
